import Mathlib

set_option allowUnsafeReducibility true
attribute [semireducible] Rat.mul Rat.inv Rat.add Rat.sub

/-!
Verification of the task-based-hiring ranking core.

Shallow embedding of `src/backend/services/evaluation_service.py`
(BST-based submission ranking), `src/backend/services/frame_extraction_service.py`
(interactive frame selection) and `src/backend/services/llm_service.py`
(pairwise comparator with fallback).

Modelling conventions, used consistently below:
* Python floats are modelled as exact rationals; `round(x, 1)` is modelled
  as round-half-even at one decimal place, which is what Python's `round`
  computes (up to double representation, immaterial on the values reached here).
* Python dict mutation is modelled by explicit state passing: the list of
  submission dicts lives in an `EvalSt` record, and the BST stores the
  position of each submission in the input list (object identity).
* The injected LLM comparator is modelled as a pure function of the two
  submission positions; the real comparator reads only immutable parts
  (id, key frames, applicant name) of the two dicts, so it factors
  through positions for a fixed input list.
* Python exceptions are modelled with `Except Unit` / `Option`.
-/

/-! ## Rounding: Python round(x, 1) on rationals (round half to even) -/

/-- Round-half-even of a rational to an integer, as Python's builtin round. -/
def roundHalfEven (q : ℚ) : ℤ :=
  let n : ℤ := ⌊q⌋
  let r : ℚ := q - n
  if r < 1/2 then n
  else if 1/2 < r then n + 1
  else if n % 2 = 0 then n else n + 1

/-- Python round(q, 1): one decimal place, banker's rounding. -/
def pyRound1 (q : ℚ) : ℚ :=
  (roundHalfEven (10 * q) : ℚ) / 10

/-! ## Data model of the ranking engine -/

/-- Python pros/cons structure returned by the comparator. -/
structure ProsCons where
  pros : List String
  cons : List String
deriving DecidableEq

/-- Result dict returned by one pairwise LLM comparison,
as consumed by evaluation_service. -/
structure CompResult where
  winner : String
  feedback_a : String
  feedback_b : String
  pros_cons_a : ProsCons
  pros_cons_b : ProsCons
deriving DecidableEq

/-- A submission dict: immutable identity plus the fields the ranking
mutates.  `score := none` models a dict without a score key. -/
structure Submission where
  sid : Nat
  applicant_name : String
  rank : Option Nat := none
  percentile : Option ℚ := none
  feedback : Option String := none
  pros_cons : Option ProsCons := none
  score : Option ℚ := none
deriving DecidableEq

instance : Inhabited Submission := ⟨⟨0, "", none, none, none, none, none⟩⟩

/-- The comparator, as a function of the positions (in the input list) of the
new submission (the A side) and the tree submission (the B side). -/
abbrev Cmp := Nat → Nat → CompResult

/-- Mutable state of one EvaluationService ranking pass: the submission dicts
(by input position), the comparison cache keyed by the pair of submission ids,
the number of LLM invocations, and the log of LLM invocations by position. -/
structure EvalSt where
  subs : List Submission
  cache : List ((Nat × Nat) × CompResult)
  llmCalls : Nat
  log : List (Nat × Nat)
deriving DecidableEq

/-- First-match lookup in the comparison cache. -/
def lookupCache (c : List ((Nat × Nat) × CompResult)) (k : Nat × Nat) :
    Option CompResult :=
  match c with
  | [] => none
  | (k', r) :: rest => if k' = k then some r else lookupCache rest k

/-- The id of the submission stored at position p. -/
def sidAt (st : EvalSt) (p : Nat) : Nat :=
  (st.subs.getD p default).sid

/-- evaluation_service._compare_submissions: consult the cache keyed by the
two ids, otherwise invoke the LLM and record the call. -/
def compareSubmissions (cmp : Cmp) (a b : Nat) (st : EvalSt) :
    CompResult × EvalSt :=
  let key := (sidAt st a, sidAt st b)
  match lookupCache st.cache key with
  | some r => (r, st)
  | none =>
      let r := cmp a b
      (r, { st with cache := st.cache ++ [(key, r)],
                    llmCalls := st.llmCalls + 1,
                    log := st.log ++ [(a, b)] })

/-- Overwrite the feedback and pros_cons fields of the dict at position p. -/
def setFb (subs : List Submission) (p : Nat) (fb : String) (pc : ProsCons) :
    List Submission :=
  subs.set p { subs.getD p default with feedback := some fb,
                                        pros_cons := some pc }

/-- setFb lifted to the evaluation state. -/
def setFeedback (st : EvalSt) (p : Nat) (fb : String) (pc : ProsCons) :
    EvalSt :=
  { st with subs := setFb st.subs p fb pc }

/-- Binary search tree over submission positions; `leaf` models a None child. -/
inductive BST where
  | leaf
  | node (left : BST) (sub : Nat) (right : BST)
deriving DecidableEq

/-- evaluation_service._insert_into_bst.  The comparator is called with the
new submission as A and the current node as B; both dicts get their feedback
overwritten from the result; the winner decides the descent direction.
The `leaf` root case is unreachable from rank_submissions (the root node is
always present) and is given the singleton-tree value. -/
def insertIntoBST (cmp : Cmp) (t : BST) (s : Nat) (st : EvalSt) :
    BST × EvalSt :=
  match t with
  | .leaf => (.node .leaf s .leaf, st)
  | .node l r rt =>
    let (c, st1) := compareSubmissions cmp s r st
    let st2 := setFeedback st1 s c.feedback_a c.pros_cons_a
    let st3 := setFeedback st2 r c.feedback_b c.pros_cons_b
    if c.winner = "A" then
      match rt with
      | .leaf => (.node l r (.node .leaf s .leaf), st3)
      | _ =>
          let (t', st4) := insertIntoBST cmp rt s st3
          (.node l r t', st4)
    else
      match l with
      | .leaf => (.node (.node .leaf s .leaf) r rt, st3)
      | _ =>
          let (t', st4) := insertIntoBST cmp l s st3
          (.node t' r rt, st4)

/-- Insert the remaining submissions one by one (the for loop of
_bst_sort_submissions). -/
def insertAll (cmp : Cmp) : List Nat → BST → EvalSt → BST × EvalSt
  | [], t, st => (t, st)
  | s :: rest, t, st =>
      let (t', st') := insertIntoBST cmp t s st
      insertAll cmp rest t' st'

/-- evaluation_service._inorder_traversal_reverse: right subtree, node,
left subtree (best to worst). -/
def inorderTraversalReverse : BST → List Nat
  | .leaf => []
  | .node l s r => inorderTraversalReverse r ++ s :: inorderTraversalReverse l

/-- evaluation_service._bst_sort_submissions on a list of positions. -/
def bstSortSubmissions (cmp : Cmp) (ps : List Nat) (st : EvalSt) :
    List Nat × EvalSt :=
  match ps with
  | [] => ([], st)
  | p0 :: rest =>
      let (t, st') := insertAll cmp rest (.node .leaf p0 .leaf) st
      (inorderTraversalReverse t, st')

/-- The percentile assignment loop of rank_submissions: element at 0-based
index idx of the ranked list receives round(100 * (total - idx) / total, 1),
and any score field is deleted. -/
def assignPercentiles (total : Nat) : Nat → List Submission → List Submission
  | _, [] => []
  | idx, s :: rest =>
      { s with percentile := some (pyRound1 (100 * ((total : ℚ) - idx) / total)),
               score := none } :: assignPercentiles total (idx + 1) rest

/-- evaluation_service.rank_submissions, returning both the output list and
the final service state (cache, call count, call log, mutated dicts).
A fresh pass starts with an empty comparison cache, as the caller clears
it before ranking. -/
def rankRun (cmp : Cmp) (subs : List Submission) : List Submission × EvalSt :=
  if subs.length ≤ 1 then
    match subs with
    | [s] =>
        ([{ s with percentile := some 100 }],
         ⟨[{ s with percentile := some 100 }], [], 0, []⟩)
    | l => (l, ⟨l, [], 0, []⟩)
  else
    let st0 : EvalSt := ⟨subs, [], 0, []⟩
    let (rankedPos, st) := bstSortSubmissions cmp (List.range subs.length) st0
    let ranked := rankedPos.map (fun p => st.subs.getD p default)
    let out := assignPercentiles rankedPos.length 0 ranked
    (out, st)

/-- The list returned by rank_submissions. -/
def rank_submissions (cmp : Cmp) (subs : List Submission) : List Submission :=
  (rankRun cmp subs).1

/-! ## Concrete fixtures: three submissions named A, B, C -/

/-- Empty pros/cons value for fixtures. -/
def pcEmpty : ProsCons := ⟨[], []⟩

/-- Comparator that always declares the first-named (A-position) argument the
winner, with feedback strings recording the compared pair. -/
def cmpAlwaysA : Cmp := fun a b =>
  ⟨"A", "fa" ++ toString a ++ toString b, "fb" ++ toString a ++ toString b,
   pcEmpty, pcEmpty⟩

/-- Three submissions A, B, C with distinct ids, in input order. -/
def subsABC : List Submission :=
  [⟨10, "A", none, none, none, none, none⟩,
   ⟨11, "B", none, none, none, none, none⟩,
   ⟨12, "C", none, none, none, none, none⟩]

/-- Claim C3 counterexample: with three submissions A, B, C and a comparator
that always declares its A-position argument the winner, rank_submissions
does not return the order A, B, C.  (In _insert_into_bst the newly inserted
submission is passed in the A position, so it always wins and the ranking
comes out reversed.) -/
theorem claim3_counterexample :
    (rank_submissions cmpAlwaysA subsABC).map (fun s => s.applicant_name) ≠
      ["A", "B", "C"] := by decide

/-- Claim C3 amended: with three submissions A, B, C and a comparator that
always declares its A-position (newly inserted) argument the winner,
rank_submissions makes exactly 3 comparator calls and returns the order
C, B, A with percentiles 100.0, 66.7, 33.3. -/
theorem claim3_amended_order_and_percentiles :
    (rank_submissions cmpAlwaysA subsABC).map
        (fun s => (s.applicant_name, s.percentile)) =
      [("C", some 100), ("B", some (667/10)), ("A", some (333/10))] ∧
    (rankRun cmpAlwaysA subsABC).2.llmCalls = 3 := by decide

/-- Claim C8: a single-submission input gets percentile exactly 100.0, its
other fields (rank included) are untouched, and no comparator call is made. -/
theorem claim8_single_submission (cmp : Cmp) (s : Submission) :
    rank_submissions cmp [s] = [{ s with percentile := some 100 }] ∧
    (rankRun cmp [s]).2.llmCalls = 0 ∧
    ({ s with percentile := some 100 } : Submission).rank = s.rank := by
  refine ⟨rfl, rfl, rfl⟩

/-! ## State facts: _compare_submissions and feedback writes do not change
submission count or ids -/

theorem compareSubmissions_subs (cmp : Cmp) (a b : Nat) (st : EvalSt) :
    (compareSubmissions cmp a b st).2.subs = st.subs := by
  simp only [compareSubmissions]
  cases lookupCache st.cache (sidAt st a, sidAt st b) <;> rfl

theorem setFb_length (subs : List Submission) (p : Nat) (fb : String)
    (pc : ProsCons) : (setFb subs p fb pc).length = subs.length :=
  List.length_set subs p _

theorem sid_setFb (subs : List Submission) (p : Nat) (fb : String)
    (pc : ProsCons) (q : Nat) :
    ((setFb subs p fb pc).getD q default).sid = (subs.getD q default).sid := by
  unfold setFb
  rw [List.getD_eq_getElem?_getD, List.getD_eq_getElem?_getD, List.getElem?_set]
  by_cases hpq : p = q
  · subst hpq
    by_cases hlt : p < subs.length
    · simp [hlt, List.getD_eq_getElem?_getD]
    · simp [hlt, List.getD_eq_getElem?_getD,
        List.getElem?_eq_none (Nat.le_of_not_lt hlt)]
  · simp [hpq, List.getD_eq_getElem?_getD]

theorem setFeedback_length (st : EvalSt) (p : Nat) (fb : String)
    (pc : ProsCons) :
    (setFeedback st p fb pc).subs.length = st.subs.length :=
  setFb_length st.subs p fb pc

theorem sidAt_setFeedback (st : EvalSt) (p : Nat) (fb : String)
    (pc : ProsCons) (q : Nat) :
    sidAt (setFeedback st p fb pc) q = sidAt st q :=
  sid_setFb st.subs p fb pc q

theorem sidAt_compareSubmissions (cmp : Cmp) (a b : Nat) (st : EvalSt)
    (q : Nat) : sidAt (compareSubmissions cmp a b st).2 q = sidAt st q := by
  unfold sidAt
  rw [compareSubmissions_subs]

/-! ## Inserting into the BST: permutation of node positions, preservation of
submission count and ids -/

theorem insertIntoBST_state (cmp : Cmp) (s : Nat) :
    ∀ (t : BST) (st : EvalSt),
      (insertIntoBST cmp t s st).2.subs.length = st.subs.length ∧
      (∀ q, sidAt (insertIntoBST cmp t s st).2 q = sidAt st q) ∧
      (inorderTraversalReverse (insertIntoBST cmp t s st).1).Perm
        (s :: inorderTraversalReverse t) := by
  intro t
  induction t with
  | leaf =>
      intro st
      refine ⟨rfl, fun q => rfl, ?_⟩
      simp [insertIntoBST, inorderTraversalReverse]
  | node l r rt ihl ihr =>
      intro st
      rw [insertIntoBST]
      cases hc : compareSubmissions cmp s r st with
      | mk c st1 =>
        have hsubs1 : st1.subs = st.subs := by
          have := compareSubmissions_subs cmp s r st
          rw [hc] at this; exact this
        have hsid1 : ∀ q, sidAt st1 q = sidAt st q := by
          intro q
          have := sidAt_compareSubmissions cmp s r st q
          rw [hc] at this; exact this
        dsimp only
        by_cases hw : c.winner = "A"
        · rw [if_pos hw]
          cases rt with
          | leaf =>
              refine ⟨?_, ?_, ?_⟩
              · simp [setFeedback_length, hsubs1]
              · intro q
                simp [sidAt_setFeedback, hsid1]
              · simp only [inorderTraversalReverse]
                exact List.Perm.refl _
          | node a b c2 =>
              cases hrec : insertIntoBST cmp (BST.node a b c2) s
                  (setFeedback (setFeedback st1 s c.feedback_a c.pros_cons_a)
                    r c.feedback_b c.pros_cons_b) with
              | mk t' st4 =>
                obtain ⟨ih1, ih2, ih3⟩ := ihr
                  (setFeedback (setFeedback st1 s c.feedback_a c.pros_cons_a)
                    r c.feedback_b c.pros_cons_b)
                rw [hrec] at ih1 ih2 ih3
                refine ⟨?_, ?_, ?_⟩
                · simp only [ih1, setFeedback_length, hsubs1]
                · intro q
                  simp only [ih2, sidAt_setFeedback, hsid1]
                · simp only [inorderTraversalReverse]
                  calc (inorderTraversalReverse t' ++
                          r :: inorderTraversalReverse l).Perm
                        ((s :: inorderTraversalReverse (BST.node a b c2)) ++
                          r :: inorderTraversalReverse l) :=
                        ih3.append_right _
                    _ = s :: (inorderTraversalReverse (BST.node a b c2) ++
                          r :: inorderTraversalReverse l) := rfl
        · rw [if_neg hw]
          cases l with
          | leaf =>
              refine ⟨?_, ?_, ?_⟩
              · simp [setFeedback_length, hsubs1]
              · intro q
                simp [sidAt_setFeedback, hsid1]
              · simp only [inorderTraversalReverse, List.nil_append]
                exact ((@List.perm_middle _ s
                    (inorderTraversalReverse rt) [r]).symm.trans
                  (List.Perm.append_left _ (List.Perm.swap r s []))).symm
          | node a b c2 =>
              cases hrec : insertIntoBST cmp (BST.node a b c2) s
                  (setFeedback (setFeedback st1 s c.feedback_a c.pros_cons_a)
                    r c.feedback_b c.pros_cons_b) with
              | mk t' st4 =>
                obtain ⟨ih1, ih2, ih3⟩ := ihl
                  (setFeedback (setFeedback st1 s c.feedback_a c.pros_cons_a)
                    r c.feedback_b c.pros_cons_b)
                rw [hrec] at ih1 ih2 ih3
                refine ⟨?_, ?_, ?_⟩
                · simp only [ih1, setFeedback_length, hsubs1]
                · intro q
                  simp only [ih2, sidAt_setFeedback, hsid1]
                · simp only [inorderTraversalReverse] at ih3 ⊢
                  refine List.Perm.trans
                    (List.Perm.append_left (inorderTraversalReverse rt)
                      (List.Perm.cons r ih3)) ?_
                  simpa using @List.perm_middle ℕ s
                    (inorderTraversalReverse rt ++ [r])
                    (inorderTraversalReverse c2 ++ b :: inorderTraversalReverse a)

theorem insertAll_state (cmp : Cmp) :
    ∀ (rest : List Nat) (t : BST) (st : EvalSt),
      (insertAll cmp rest t st).2.subs.length = st.subs.length ∧
      (∀ q, sidAt (insertAll cmp rest t st).2 q = sidAt st q) ∧
      (inorderTraversalReverse (insertAll cmp rest t st).1).Perm
        (rest ++ inorderTraversalReverse t) := by
  intro rest
  induction rest with
  | nil =>
      intro t st
      exact ⟨rfl, fun q => rfl, List.Perm.refl _⟩
  | cons s rest ih =>
      intro t st
      obtain ⟨hl, hs, hp⟩ := insertIntoBST_state cmp s t st
      cases hins : insertIntoBST cmp t s st with
      | mk t' st' =>
        rw [hins] at hl hs hp
        obtain ⟨ihl, ihs, ihp⟩ := ih t' st'
        refine ⟨?_, ?_, ?_⟩
        · rw [insertAll, hins]
          dsimp only
          rw [ihl, hl]
        · intro q
          rw [insertAll, hins]
          dsimp only
          rw [ihs q, hs q]
        · rw [insertAll, hins]
          dsimp only
          refine ihp.trans ?_
          refine (List.Perm.append_left rest hp).trans ?_
          exact @List.perm_middle ℕ s rest (inorderTraversalReverse t)

theorem bstSort_state (cmp : Cmp) (ps : List Nat) (st : EvalSt) :
    (bstSortSubmissions cmp ps st).2.subs.length = st.subs.length ∧
    (∀ q, sidAt (bstSortSubmissions cmp ps st).2 q = sidAt st q) ∧
    ((bstSortSubmissions cmp ps st).1).Perm ps := by
  cases ps with
  | nil => exact ⟨rfl, fun q => rfl, List.Perm.refl _⟩
  | cons p0 rest =>
      obtain ⟨hl, hs, hp⟩ :=
        insertAll_state cmp rest (.node .leaf p0 .leaf) st
      cases hins : insertAll cmp rest (.node .leaf p0 .leaf) st with
      | mk t' st' =>
        rw [hins] at hl hs hp
        refine ⟨?_, ?_, ?_⟩
        · rw [bstSortSubmissions, hins]
          exact hl
        · intro q
          rw [bstSortSubmissions, hins]
          exact hs q
        · rw [bstSortSubmissions, hins]
          dsimp only
          refine hp.trans ?_
          simp only [inorderTraversalReverse, List.nil_append]
          exact List.Perm.trans (@List.perm_middle ℕ p0 rest [])
            (by rw [List.append_nil])

/-! ## The percentile assignment loop -/

theorem assignPercentiles_length (total : Nat) :
    ∀ (k : Nat) (l : List Submission),
      (assignPercentiles total k l).length = l.length := by
  intro k l
  induction l generalizing k with
  | nil => rfl
  | cons x xs ih => simp [assignPercentiles, ih]

theorem assignPercentiles_map_sid (total : Nat) :
    ∀ (k : Nat) (l : List Submission),
      (assignPercentiles total k l).map Submission.sid =
        l.map Submission.sid := by
  intro k l
  induction l generalizing k with
  | nil => rfl
  | cons x xs ih => simp [assignPercentiles, ih]

theorem assignPercentiles_getElem? (total : Nat) :
    ∀ (l : List Submission) (k i : Nat),
      (assignPercentiles total k l)[i]? =
        (l[i]?).map (fun s =>
          { s with
            percentile := some (pyRound1 (100 * ((total : ℚ) - (k + i)) / total)),
            score := none }) := by
  intro l
  induction l with
  | nil => intro k i; rfl
  | cons x xs ih =>
      intro k i
      cases i with
      | zero => simp [assignPercentiles]
      | succ i =>
          rw [assignPercentiles]
          simp only [List.getElem?_cons_succ]
          rw [ih (k + 1) i]
          rw [show ((k + 1 : Nat) : ℚ) + (i : ℚ) = (k : ℚ) + ((i : Nat) + 1 : ℚ)
            by push_cast; ring]
          norm_cast

/-! ## rank_submissions on two or more submissions -/

theorem range_map_getD (f : Submission → Nat) :
    ∀ (l : List Submission),
      (List.range l.length).map (fun i => f (l.getD i default)) = l.map f := by
  intro l
  induction l with
  | nil => rfl
  | cons x xs ih =>
      rw [List.length_cons, List.range_succ_eq_map]
      simp only [List.map_cons, List.map_map, List.getD_cons_zero]
      refine congrArg (f x :: ·) ?_
      rw [← ih]
      apply List.map_congr_left
      intro i _
      simp [List.getD_cons_succ]

theorem rankRun_eq_of_two_le (cmp : Cmp) (subs : List Submission)
    (h2 : 2 ≤ subs.length) :
    rankRun cmp subs =
      (assignPercentiles
          (bstSortSubmissions cmp (List.range subs.length)
            ⟨subs, [], 0, []⟩).1.length 0
          ((bstSortSubmissions cmp (List.range subs.length)
              ⟨subs, [], 0, []⟩).1.map
            (fun p => (bstSortSubmissions cmp (List.range subs.length)
                ⟨subs, [], 0, []⟩).2.subs.getD p default)),
       (bstSortSubmissions cmp (List.range subs.length) ⟨subs, [], 0, []⟩).2) := by
  rw [rankRun, if_neg (by omega)]
  intro s hs
  rw [hs] at h2
  simp at h2

theorem rank_length (cmp : Cmp) (subs : List Submission)
    (h2 : 2 ≤ subs.length) :
    (rank_submissions cmp subs).length = subs.length := by
  rw [rank_submissions, rankRun_eq_of_two_le cmp subs h2]
  dsimp only
  rw [assignPercentiles_length, List.length_map,
    (bstSort_state cmp (List.range subs.length) ⟨subs, [], 0, []⟩).2.2.length_eq,
    List.length_range]

/-- Claim C5: for two or more submissions, the returned list is a permutation
of the input list (the same submission objects, identified by id, each exactly
once), and in particular has the same length. -/
theorem claim5_output_is_permutation (cmp : Cmp) (subs : List Submission)
    (h2 : 2 ≤ subs.length) :
    ((rank_submissions cmp subs).map Submission.sid).Perm
      (subs.map Submission.sid) ∧
    (rank_submissions cmp subs).length = subs.length := by
  refine ⟨?_, rank_length cmp subs h2⟩
  rw [rank_submissions, rankRun_eq_of_two_le cmp subs h2]
  dsimp only
  obtain ⟨hlen, hsid, hperm⟩ :=
    bstSort_state cmp (List.range subs.length) ⟨subs, [], 0, []⟩
  rw [assignPercentiles_map_sid, List.map_map]
  have hfun : (Submission.sid ∘ fun p =>
      (bstSortSubmissions cmp (List.range subs.length)
        ⟨subs, [], 0, []⟩).2.subs.getD p default) =
      (fun i => ((subs.getD i default).sid)) := by
    funext p
    exact hsid p
  rw [hfun]
  refine (List.Perm.map _ hperm).trans ?_
  rw [range_map_getD Submission.sid subs]

/-- Claim C5 witness at a concrete input. -/
theorem claim5_witness :
    2 ≤ subsABC.length ∧
    (((rank_submissions cmpAlwaysA subsABC).map Submission.sid).Perm
        (subsABC.map Submission.sid) ∧
      (rank_submissions cmpAlwaysA subsABC).length = subsABC.length) :=
  ⟨by decide, claim5_output_is_permutation cmpAlwaysA subsABC (by decide)⟩

theorem rank_percentile_at (cmp : Cmp) (subs : List Submission)
    (h2 : 2 ≤ subs.length) (idx : Nat) (hidx : idx < subs.length) :
    ((rank_submissions cmp subs).getD idx default).percentile =
      some (pyRound1 (100 * ((subs.length : ℚ) - idx) / subs.length)) := by
  rw [rank_submissions, rankRun_eq_of_two_le cmp subs h2]
  dsimp only
  obtain ⟨hlen, hsid, hperm⟩ :=
    bstSort_state cmp (List.range subs.length) ⟨subs, [], 0, []⟩
  have hrl : (bstSortSubmissions cmp (List.range subs.length)
      ⟨subs, [], 0, []⟩).1.length = subs.length := by
    rw [hperm.length_eq, List.length_range]
  have hidx' : idx < ((bstSortSubmissions cmp (List.range subs.length)
      ⟨subs, [], 0, []⟩).1.map
        (fun p => (bstSortSubmissions cmp (List.range subs.length)
            ⟨subs, [], 0, []⟩).2.subs.getD p default)).length := by
    rw [List.length_map, hrl]; exact hidx
  rw [List.getD_eq_getElem?_getD, assignPercentiles_getElem?,
    List.getElem?_eq_getElem hidx']
  simp only [Option.map_some', Option.getD_some, hrl]
  norm_num

/-- Claim C6: for two or more submissions, the submission at 0-based index
idx of the returned ordering carries percentile
round(100 * (total - idx) / total, 1) with total the input length, and the
submission at index 0 carries exactly 100.0. -/
theorem claim6_percentile_formula (cmp : Cmp) (subs : List Submission)
    (h2 : 2 ≤ subs.length) (idx : Nat) (hidx : idx < subs.length) :
    ((rank_submissions cmp subs).getD idx default).percentile =
      some (pyRound1 (100 * ((subs.length : ℚ) - idx) / subs.length)) ∧
    ((rank_submissions cmp subs).getD 0 default).percentile = some 100 := by
  refine ⟨rank_percentile_at cmp subs h2 idx hidx, ?_⟩
  rw [rank_percentile_at cmp subs h2 0 (by omega)]
  have hne : ((subs.length : ℚ)) ≠ 0 := by
    have : (0 : ℚ) < subs.length := by exact_mod_cast (by omega : 0 < subs.length)
    linarith
  rw [show (100 : ℚ) * ((subs.length : ℚ) - (0 : ℕ)) / subs.length = 100 by
    push_cast
    rw [sub_zero, mul_div_assoc, div_self hne, mul_one]]
  rw [show pyRound1 100 = 100 by decide]

/-- Claim C6 witness at a concrete input. -/
theorem claim6_witness :
    (2 ≤ subsABC.length ∧ 1 < subsABC.length) ∧
    (((rank_submissions cmpAlwaysA subsABC).getD 1 default).percentile =
        some (pyRound1 (100 * ((subsABC.length : ℚ) - 1) / subsABC.length)) ∧
      ((rank_submissions cmpAlwaysA subsABC).getD 0 default).percentile =
        some 100) := by
  refine ⟨⟨by decide, by decide⟩, ?_⟩
  have h := claim6_percentile_formula cmpAlwaysA subsABC (by decide) 1 (by decide)
  simpa using h

/-! ## Monotonicity of the rounding -/

theorem floor_le_roundHalfEven (q : ℚ) : ⌊q⌋ ≤ roundHalfEven q := by
  simp only [roundHalfEven]
  split_ifs <;> omega

theorem roundHalfEven_le_floor_add_one (q : ℚ) :
    roundHalfEven q ≤ ⌊q⌋ + 1 := by
  simp only [roundHalfEven]
  split_ifs <;> omega

theorem roundHalfEven_le (q : ℚ) : (roundHalfEven q : ℚ) ≤ q + 1/2 := by
  have hfl : ((⌊q⌋ : ℤ) : ℚ) ≤ q := Int.floor_le q
  have hlt : q < (⌊q⌋ : ℚ) + 1 := Int.lt_floor_add_one q
  simp only [roundHalfEven]
  split_ifs with h1 h2 h3 <;> push_cast <;> linarith

theorem le_roundHalfEven (q : ℚ) : q - 1/2 ≤ (roundHalfEven q : ℚ) := by
  have hfl : ((⌊q⌋ : ℤ) : ℚ) ≤ q := Int.floor_le q
  have hlt : q < (⌊q⌋ : ℚ) + 1 := Int.lt_floor_add_one q
  simp only [roundHalfEven]
  split_ifs with h1 h2 h3 <;> push_cast <;> linarith

theorem roundHalfEven_intCast (m : ℤ) : roundHalfEven (m : ℚ) = m := by
  simp only [roundHalfEven, Int.floor_intCast, sub_self]
  norm_num

theorem roundHalfEven_mono {q q' : ℚ} (h : q ≤ q') :
    roundHalfEven q ≤ roundHalfEven q' := by
  rcases lt_or_eq_of_le (Int.floor_le_floor h) with hf | hf
  · calc roundHalfEven q ≤ ⌊q⌋ + 1 := roundHalfEven_le_floor_add_one q
      _ ≤ ⌊q'⌋ := by omega
      _ ≤ roundHalfEven q' := floor_le_roundHalfEven q'
  · simp only [roundHalfEven]
    rw [← hf]
    split_ifs <;> first
      | omega
      | (exfalso; linarith)

theorem pyRound1_mono {q q' : ℚ} (h : q ≤ q') : pyRound1 q ≤ pyRound1 q' := by
  unfold pyRound1
  have h10 : 10 * q ≤ 10 * q' := by linarith
  have hm := roundHalfEven_mono h10
  have hm' : ((roundHalfEven (10 * q) : ℤ) : ℚ) ≤
      ((roundHalfEven (10 * q') : ℤ) : ℚ) := by exact_mod_cast hm
  have : (0 : ℚ) < 10 := by norm_num
  exact (div_le_div_iff_of_pos_right this).mpr hm'

theorem pyRound1_lt {q q' : ℚ} (h : q + 1/10 < q') : pyRound1 q < pyRound1 q' := by
  have hu := roundHalfEven_le (10 * q)
  have hl := le_roundHalfEven (10 * q')
  have hlt : ((roundHalfEven (10 * q) : ℤ) : ℚ) <
      ((roundHalfEven (10 * q') : ℤ) : ℚ) := by linarith
  unfold pyRound1
  have : (0 : ℚ) < 10 := by norm_num
  exact (div_lt_div_iff_of_pos_right this).mpr hlt

theorem pyRound1_int_div_ten (m : ℤ) : pyRound1 ((m : ℚ) / 10) = (m : ℚ) / 10 := by
  unfold pyRound1
  rw [show (10 : ℚ) * ((m : ℚ) / 10) = (m : ℚ) by ring, roundHalfEven_intCast]

/-- 1001 submissions with distinct ids. -/
def subs1001 : List Submission :=
  (List.range 1001).map (fun k => ⟨k, "", none, none, none, none, none⟩)

/-- Claim C7 counterexample: with 1001 submissions, the submissions at output
indices 500 and 501 both receive percentile 50.0, so the percentiles are not
strictly decreasing down the ranking. -/
theorem claim7_counterexample :
    (500 : Nat) < 501 ∧ subs1001.length = 1001 ∧
    ((rank_submissions cmpAlwaysA subs1001).getD 500 default).percentile =
      ((rank_submissions cmpAlwaysA subs1001).getD 501 default).percentile := by
  have hlen : subs1001.length = 1001 := by simp [subs1001]
  refine ⟨by omega, hlen, ?_⟩
  rw [rank_percentile_at cmpAlwaysA subs1001 (by rw [hlen]; omega) 500
        (by rw [hlen]; omega),
      rank_percentile_at cmpAlwaysA subs1001 (by rw [hlen]; omega) 501
        (by rw [hlen]; omega), hlen]
  decide

/-- Claim C7 amended: for two or more submissions the percentiles are
non-increasing down the returned ordering, and they are strictly decreasing
whenever the number of submissions is at most 1000 (for more than 1000
submissions, adjacent raw values differ by less than 0.1 and rounding to one
decimal place can make them collide). -/
theorem claim7_amended_monotone (cmp : Cmp) (subs : List Submission)
    (h2 : 2 ≤ subs.length) (i j : Nat) (hij : i < j) (hj : j < subs.length) :
    ∃ pi pj : ℚ,
      ((rank_submissions cmp subs).getD i default).percentile = some pi ∧
      ((rank_submissions cmp subs).getD j default).percentile = some pj ∧
      pj ≤ pi ∧ (subs.length ≤ 1000 → pj < pi) := by
  refine ⟨_, _, rank_percentile_at cmp subs h2 i (by omega),
    rank_percentile_at cmp subs h2 j hj, ?_, ?_⟩
  · have hn : (0 : ℚ) < subs.length := by
      exact_mod_cast (by omega : 0 < subs.length)
    apply pyRound1_mono
    have hji : (i : ℚ) ≤ (j : ℚ) := by exact_mod_cast Nat.le_of_lt hij
    have hnum : (100 : ℚ) * ((subs.length : ℚ) - j) ≤
        100 * ((subs.length : ℚ) - i) := by linarith
    exact (div_le_div_iff_of_pos_right hn).mpr hnum
  · intro h1000
    by_cases hn1000 : subs.length = 1000
    · have ei : (100 : ℚ) * ((subs.length : ℚ) - i) / subs.length =
          ((1000 - (i : ℤ) : ℤ) : ℚ) / 10 := by
        rw [hn1000]; push_cast; ring
      have ej : (100 : ℚ) * ((subs.length : ℚ) - j) / subs.length =
          ((1000 - (j : ℤ) : ℤ) : ℚ) / 10 := by
        rw [hn1000]; push_cast; ring
      rw [ei, ej, pyRound1_int_div_ten, pyRound1_int_div_ten]
      have h10 : (0 : ℚ) < 10 := by norm_num
      apply (div_lt_div_iff_of_pos_right h10).mpr
      have : (1000 - (j : ℤ)) < 1000 - (i : ℤ) := by omega
      exact_mod_cast this
    · have hn : (0 : ℚ) < subs.length := by
        exact_mod_cast (by omega : 0 < subs.length)
      have hlt1000 : (subs.length : ℚ) < 1000 := by
        exact_mod_cast (by omega : subs.length < 1000)
      apply pyRound1_lt
      have hji : (i : ℚ) + 1 ≤ (j : ℚ) := by exact_mod_cast hij
      have hdiff : 100 * ((subs.length : ℚ) - i) / subs.length -
          100 * ((subs.length : ℚ) - j) / subs.length =
          100 * ((j : ℚ) - i) / subs.length := by
        field_simp
        ring
      have hgap : (1 : ℚ) / 10 < 100 * ((j : ℚ) - i) / subs.length := by
        rw [lt_div_iff₀ hn]
        nlinarith
      linarith

/-- Claim C7 amended witness at a concrete input. -/
theorem claim7_amended_witness :
    (2 ≤ subsABC.length ∧ (0 : Nat) < 1 ∧ 1 < subsABC.length) ∧
    (∃ pi pj : ℚ,
      ((rank_submissions cmpAlwaysA subsABC).getD 0 default).percentile =
        some pi ∧
      ((rank_submissions cmpAlwaysA subsABC).getD 1 default).percentile =
        some pj ∧
      pj ≤ pi ∧ (subsABC.length ≤ 1000 → pj < pi)) :=
  ⟨⟨by decide, by decide, by decide⟩,
   claim7_amended_monotone cmpAlwaysA subsABC (by decide) 0 1 (by decide)
     (by decide)⟩

/-! ## Call accounting: each insertion walks a path of distinct nodes, makes
one fresh LLM call per node, and overwrites the feedback of both parties -/

/-- Two log entries denote the same unordered pair of submissions. -/
def sameUnorderedPair (e f : Nat × Nat) : Prop :=
  (e.1 = f.1 ∧ e.2 = f.2) ∨ (e.1 = f.2 ∧ e.2 = f.1)

instance (e f : Nat × Nat) : Decidable (sameUnorderedPair e f) := by
  unfold sameUnorderedPair
  infer_instance

/-- The effect of one comparison on the submission store: lines 87 to 90 of
evaluation_service overwrite feedback and pros_cons of the A-side submission
and then of the B-side submission. -/
def applyComparison (cmp : Cmp) (subs : List Submission) (e : Nat × Nat) :
    List Submission :=
  let c := cmp e.1 e.2
  setFb (setFb subs e.1 c.feedback_a c.pros_cons_a) e.2 c.feedback_b
    c.pros_cons_b

theorem lookupCache_eq_none (key : Nat × Nat) :
    ∀ (c : List ((Nat × Nat) × CompResult)),
      (∀ k ∈ c, k.1 ≠ key) → lookupCache c key = none := by
  intro c
  induction c with
  | nil => intro _; rfl
  | cons kv rest ih =>
      intro h
      cases kv with
      | mk k' r =>
        rw [lookupCache, if_neg (h (k', r) (by simp))]
        exact ih (fun k hk => h k (List.mem_cons_of_mem _ hk))

theorem compareSubmissions_miss (cmp : Cmp) (a b : Nat) (st : EvalSt)
    (h : ∀ k ∈ st.cache, k.1 ≠ (sidAt st a, sidAt st b)) :
    compareSubmissions cmp a b st =
      (cmp a b,
       { st with cache := st.cache ++ [((sidAt st a, sidAt st b), cmp a b)],
                 llmCalls := st.llmCalls + 1,
                 log := st.log ++ [(a, b)] }) := by
  simp only [compareSubmissions]
  rw [lookupCache_eq_none _ _ h]

theorem nodup_middle_facts {α : Type} {A B : List α} {x : α}
    (h : (A ++ x :: B).Nodup) : x ∉ A ∧ x ∉ B ∧ A.Nodup ∧ B.Nodup := by
  obtain ⟨hA, hxB, hdisj⟩ := List.nodup_append.mp h
  refine ⟨?_, ?_, hA, hxB.of_cons⟩
  · intro hxA
    exact hdisj hxA (List.mem_cons_self x B)
  · exact (List.nodup_cons.mp hxB).1

theorem insertIntoBST_calls (cmp : Cmp) (s : Nat) :
    ∀ (t : BST), t ≠ BST.leaf → ∀ (st : EvalSt),
      s ∉ inorderTraversalReverse t →
      ((inorderTraversalReverse t).map (sidAt st)).Nodup →
      (∀ k ∈ st.cache, k.1.1 = sidAt st s →
        k.1.2 ∉ (inorderTraversalReverse t).map (sidAt st)) →
      ∃ path : List Nat,
        path ≠ [] ∧
        path.Nodup ∧
        (∀ x ∈ path, x ∈ inorderTraversalReverse t) ∧
        path.length ≤ (inorderTraversalReverse t).length ∧
        (insertIntoBST cmp t s st).2.log =
          st.log ++ path.map (fun x => (s, x)) ∧
        (insertIntoBST cmp t s st).2.llmCalls = st.llmCalls + path.length ∧
        (insertIntoBST cmp t s st).2.cache =
          st.cache ++ path.map (fun x => ((sidAt st s, sidAt st x), cmp s x)) ∧
        (insertIntoBST cmp t s st).2.subs =
          (path.map (fun x => (s, x))).foldl (applyComparison cmp) st.subs := by
  intro t
  induction t with
  | leaf => intro hne; exact absurd rfl hne
  | node l r rt ihl ihr =>
      intro _ st hfresh hnodup hcache
      have hnodes : inorderTraversalReverse (BST.node l r rt) =
          inorderTraversalReverse rt ++ r :: inorderTraversalReverse l := rfl
      have hrmem : r ∈ inorderTraversalReverse (BST.node l r rt) := by
        rw [hnodes]
        exact List.mem_append_right _ (List.mem_cons_self r _)
      have hmiss : ∀ k ∈ st.cache, k.1 ≠ (sidAt st s, sidAt st r) := by
        intro k hk hkey
        have h1 : k.1.1 = sidAt st s := by rw [hkey]
        have h2 : k.1.2 = sidAt st r := by rw [hkey]
        exact (hcache k hk h1)
          (h2 ▸ List.mem_map_of_mem (sidAt st) hrmem)
      have hmidsid := nodup_middle_facts
        (by rw [hnodes] at hnodup; simpa using hnodup)
      have hposnodup : (inorderTraversalReverse
          (BST.node l r rt)).Nodup := hnodup.of_map _
      have hmidpos := nodup_middle_facts (by rw [hnodes] at hposnodup; exact hposnodup)
      rw [insertIntoBST, compareSubmissions_miss cmp s r st hmiss]
      dsimp only
      set c := cmp s r with hc
      set st1 : EvalSt :=
        { st with cache := st.cache ++ [((sidAt st s, sidAt st r), c)],
                  llmCalls := st.llmCalls + 1,
                  log := st.log ++ [(s, r)] } with hst1
      set st3 : EvalSt :=
        setFeedback (setFeedback st1 s c.feedback_a c.pros_cons_a) r
          c.feedback_b c.pros_cons_b with hst3
      have hsid3 : ∀ q, sidAt st3 q = sidAt st q := by
        intro q
        rw [hst3, sidAt_setFeedback, sidAt_setFeedback]
        rfl
      have hfun3 : sidAt st3 = sidAt st := funext hsid3
      have hcache3 : st3.cache =
          st.cache ++ [((sidAt st s, sidAt st r), c)] := rfl
      have hlog3 : st3.log = st.log ++ [(s, r)] := rfl
      have hllm3 : st3.llmCalls = st.llmCalls + 1 := rfl
      have hsubs3 : st3.subs = applyComparison cmp st.subs (s, r) := rfl
      by_cases hw : c.winner = "A"
      · rw [if_pos hw]
        cases rt with
        | leaf =>
            refine ⟨[r], by simp, by simp, ?_, ?_, ?_, ?_, ?_, ?_⟩
            · intro x hx
              rw [List.mem_singleton] at hx
              rw [hx]; exact hrmem
            · rw [hnodes]
              simp only [List.length_append, List.length_cons,
                List.length_singleton, List.length_nil]
              omega
            · simpa using hlog3
            · simpa using hllm3
            · simpa using hcache3
            · simpa using hsubs3
        | node a b c2 =>
            have hfreshr : s ∉ inorderTraversalReverse (BST.node a b c2) := by
              intro hmem
              exact hfresh (by rw [hnodes]; exact List.mem_append_left _ hmem)
            have hnodupr : ((inorderTraversalReverse
                (BST.node a b c2)).map (sidAt st3)).Nodup := by
              rw [hfun3]
              rw [hnodes] at hnodup
              rw [List.map_append] at hnodup
              exact hnodup.of_append_left
            have hcacher : ∀ k ∈ st3.cache, k.1.1 = sidAt st3 s →
                k.1.2 ∉ (inorderTraversalReverse
                  (BST.node a b c2)).map (sidAt st3) := by
              rw [hfun3, hcache3]
              intro k hk h1
              rw [List.mem_append] at hk
              rcases hk with hk | hk
              · intro hmem
                refine hcache k hk h1 ?_
                rw [hnodes, List.map_append]
                exact List.mem_append_left _ hmem
              · rw [List.mem_singleton] at hk
                rw [hk]
                exact hmidsid.1
            obtain ⟨path', hp1, hp2, hp3, hp4, hp5, hp6, hp7, hp8⟩ :=
              ihr (by intro h; exact BST.noConfusion h) st3 hfreshr hnodupr hcacher
            cases hrec : insertIntoBST cmp (BST.node a b c2) s st3 with
            | mk t' st4 =>
              rw [hrec] at hp5 hp6 hp7 hp8
              refine ⟨r :: path', by simp, ?_, ?_, ?_, ?_, ?_, ?_, ?_⟩
              · rw [List.nodup_cons]
                refine ⟨fun hmem => hmidpos.1 (hp3 r hmem), hp2⟩
              · intro x hx
                rcases List.mem_cons.mp hx with hx | hx
                · rw [hx]; exact hrmem
                · rw [hnodes]
                  exact List.mem_append_left _ (hp3 x hx)
              · rw [hnodes]
                simp only [List.length_cons, List.length_append]
                have := hp4
                simp only [List.length_cons] at this ⊢
                omega
              · rw [hp5, hlog3]
                simp [List.append_assoc]
              · rw [hp6, hllm3]
                simp only [List.length_cons]
                omega
              · rw [hp7, hcache3, hfun3]
                simp [List.append_assoc]
              · rw [hp8, hsubs3]
                simp
      · rw [if_neg hw]
        cases l with
        | leaf =>
            refine ⟨[r], by simp, by simp, ?_, ?_, ?_, ?_, ?_, ?_⟩
            · intro x hx
              rw [List.mem_singleton] at hx
              rw [hx]; exact hrmem
            · rw [hnodes]
              simp only [List.length_append, List.length_cons,
                List.length_singleton, List.length_nil]
              omega
            · simpa using hlog3
            · simpa using hllm3
            · simpa using hcache3
            · simpa using hsubs3
        | node a b c2 =>
            have hfreshr : s ∉ inorderTraversalReverse (BST.node a b c2) := by
              intro hmem
              apply hfresh
              rw [hnodes]
              exact List.mem_append_right _ (List.mem_cons_of_mem _ hmem)
            have hnodupr : ((inorderTraversalReverse
                (BST.node a b c2)).map (sidAt st3)).Nodup := by
              rw [hfun3]
              rw [hnodes] at hnodup
              rw [List.map_append, List.map_cons] at hnodup
              exact ((List.nodup_append.mp hnodup).2.1).of_cons
            have hcacher : ∀ k ∈ st3.cache, k.1.1 = sidAt st3 s →
                k.1.2 ∉ (inorderTraversalReverse
                  (BST.node a b c2)).map (sidAt st3) := by
              rw [hfun3, hcache3]
              intro k hk h1
              rw [List.mem_append] at hk
              rcases hk with hk | hk
              · intro hmem
                refine hcache k hk h1 ?_
                rw [hnodes, List.map_append, List.map_cons]
                exact List.mem_append_right _ (List.mem_cons_of_mem _ hmem)
              · rw [List.mem_singleton] at hk
                rw [hk]
                exact hmidsid.2.1
            obtain ⟨path', hp1, hp2, hp3, hp4, hp5, hp6, hp7, hp8⟩ :=
              ihl (by intro h; exact BST.noConfusion h) st3 hfreshr hnodupr hcacher
            cases hrec : insertIntoBST cmp (BST.node a b c2) s st3 with
            | mk t' st4 =>
              rw [hrec] at hp5 hp6 hp7 hp8
              refine ⟨r :: path', by simp, ?_, ?_, ?_, ?_, ?_, ?_, ?_⟩
              · rw [List.nodup_cons]
                refine ⟨fun hmem => hmidpos.2.1 (hp3 r hmem), hp2⟩
              · intro x hx
                rcases List.mem_cons.mp hx with hx | hx
                · rw [hx]; exact hrmem
                · rw [hnodes]
                  exact List.mem_append_right _
                    (List.mem_cons_of_mem _ (hp3 x hx))
              · rw [hnodes]
                simp only [List.length_cons, List.length_append]
                have := hp4
                simp only [List.length_cons] at this ⊢
                omega
              · rw [hp5, hlog3]
                simp [List.append_assoc]
              · rw [hp6, hllm3]
                simp only [List.length_cons]
                omega
              · rw [hp7, hcache3, hfun3]
                simp [List.append_assoc]
              · rw [hp8, hsubs3]
                simp

theorem insertAll_calls (cmp : Cmp) :
    ∀ (rest : List Nat) (t : BST), t ≠ BST.leaf → ∀ (st : EvalSt),
      ((inorderTraversalReverse t ++ rest).map (sidAt st)).Nodup →
      (∀ k ∈ st.cache, k.1.1 ∉ rest.map (sidAt st)) →
      ∃ ES : List (Nat × Nat),
        (insertAll cmp rest t st).2.log = st.log ++ ES ∧
        (insertAll cmp rest t st).2.llmCalls = st.llmCalls + ES.length ∧
        rest.length ≤ ES.length ∧
        2 * ES.length + rest.length ≤
          2 * rest.length * (inorderTraversalReverse t).length +
            rest.length * rest.length ∧
        (∀ e ∈ ES, e.1 ∈ rest ∧ e.2 ∈ inorderTraversalReverse t ++ rest) ∧
        ES.Pairwise (fun e f => ¬ sameUnorderedPair e f) ∧
        (insertAll cmp rest t st).2.cache = st.cache ++
          ES.map (fun e => ((sidAt st e.1, sidAt st e.2), cmp e.1 e.2)) ∧
        (insertAll cmp rest t st).2.subs =
          ES.foldl (applyComparison cmp) st.subs := by
  intro rest
  induction rest with
  | nil =>
      intro t _ st _ _
      exact ⟨[], by simp [insertAll], by simp [insertAll], by simp,
        by simp, by simp, by simp, by simp [insertAll], by simp [insertAll]⟩
  | cons s rest ih =>
      intro t hne st hnodup hcache
      have hposnodup : (inorderTraversalReverse t ++ s :: rest).Nodup :=
        hnodup.of_map _
      obtain ⟨hsP, hsR, hPnd, hRnd⟩ := nodup_middle_facts hposnodup
      have hdisjP : ∀ x ∈ inorderTraversalReverse t, x ∉ s :: rest := by
        intro x hx
        exact (List.nodup_append.mp hposnodup).2.2 hx
      have hmapnodup := hnodup
      rw [List.map_append, List.map_cons] at hmapnodup
      obtain ⟨hsidsP, hsidsR, hsidPnd, hsidRnd⟩ := nodup_middle_facts hmapnodup
      obtain ⟨path, hq1, hq2, hq3, hq4, hq5, hq6, hq7, hq8⟩ :=
        insertIntoBST_calls cmp s t hne st hsP
          (by rw [List.map_append] at hnodup; exact hnodup.of_append_left)
          (by
            intro k hk h1
            exact absurd (h1 ▸ List.mem_cons_self _ _ :
              k.1.1 ∈ (s :: rest).map (sidAt st))
              (by simpa using hcache k hk))
      obtain ⟨hl', hs', hp'⟩ := insertIntoBST_state cmp s t st
      cases hins : insertIntoBST cmp t s st with
      | mk t' st' =>
        rw [hins] at hq5 hq6 hq7 hq8 hl' hs' hp'
        have hfun' : sidAt st' = sidAt st := funext hs'
        have htlen : (inorderTraversalReverse t').length =
            (inorderTraversalReverse t).length + 1 := by
          rw [hp'.length_eq, List.length_cons]
        have hne' : t' ≠ BST.leaf := by
          intro h
          rw [h] at hp'
          have := hp'.symm.eq_nil
          simp [inorderTraversalReverse] at this
        have hperm2 : (inorderTraversalReverse t' ++ rest).Perm
            (inorderTraversalReverse t ++ s :: rest) := by
          refine List.Perm.trans (hp'.append_right rest) ?_
          exact (@List.perm_middle ℕ s (inorderTraversalReverse t) rest).symm
        have hnodup' : ((inorderTraversalReverse t' ++ rest).map
            (sidAt st')).Nodup := by
          rw [hfun']
          exact (hperm2.map (sidAt st)).symm.nodup hnodup
        have hcache' : ∀ k ∈ st'.cache, k.1.1 ∉ rest.map (sidAt st') := by
          rw [hfun', hq7]
          intro k hk
          rw [List.mem_append] at hk
          rcases hk with hk | hk
          · intro hmem
            exact hcache k hk (List.mem_cons_of_mem _ hmem)
          · obtain ⟨x, hx, rfl⟩ := List.mem_map.mp hk
            exact hsidsR
        obtain ⟨ES', hr1, hr2, hr3, hr4, hr5, hr6, hr7, hr8⟩ :=
          ih t' hne' st' hnodup' hcache'
        refine ⟨path.map (fun x => (s, x)) ++ ES', ?_, ?_, ?_, ?_, ?_, ?_, ?_, ?_⟩
        · rw [insertAll, hins]
          dsimp only
          rw [hr1, hq5, List.append_assoc]
        · rw [insertAll, hins]
          dsimp only
          rw [hr2, hq6, List.length_append, List.length_map]
          omega
        · have h1 : 1 ≤ path.length := List.length_pos.mpr hq1
          simp only [List.length_append, List.length_map, List.length_cons]
          omega
        · have h1 : 1 ≤ path.length := List.length_pos.mpr hq1
          have hbound := hr4
          rw [htlen] at hbound
          simp only [List.length_append, List.length_map, List.length_cons]
          nlinarith [hq4, hbound, hr3]
        · intro e he
          rw [List.mem_append] at he
          rcases he with he | he
          · obtain ⟨x, hx, rfl⟩ := List.mem_map.mp he
            exact ⟨List.mem_cons_self _ _,
              List.mem_append_left _ (hq3 x hx)⟩
          · obtain ⟨he1, he2⟩ := hr5 e he
            constructor
            · exact List.mem_cons_of_mem _ he1
            · exact (hperm2.mem_iff).mp he2
        · rw [List.pairwise_append]
          refine ⟨?_, hr6, ?_⟩
          · rw [List.pairwise_map]
            refine List.Pairwise.imp_of_mem ?_ hq2
            intro x y hx hy hxy
            intro hsame
            rcases hsame with ⟨_, h2⟩ | ⟨h1, h2⟩
            · exact hxy (h2 : x = y)
            · have h1' : s = y := h1
              exact hsP (h1' ▸ hq3 y hy)
          · intro e he f hf
            obtain ⟨x, hx, rfl⟩ := List.mem_map.mp he
            obtain ⟨hf1, _⟩ := hr5 f hf
            intro hsame
            rcases hsame with ⟨h1, _⟩ | ⟨_, h2⟩
            · have h1' : s = f.1 := h1
              exact hsR (h1' ▸ hf1)
            · have h2' : x = f.1 := h2
              exact (hdisjP x (hq3 x hx))
                (List.mem_cons_of_mem _ (h2' ▸ hf1))
        · rw [insertAll, hins]
          dsimp only
          rw [hr7, hq7, hfun', List.map_append, List.map_map,
            List.append_assoc]
          rfl
        · rw [insertAll, hins]
          dsimp only
          rw [hr8, hq8, List.foldl_append]

theorem rank_calls (cmp : Cmp) (subs : List Submission)
    (h2 : 2 ≤ subs.length) (hids : (subs.map Submission.sid).Nodup) :
    ∃ ES : List (Nat × Nat),
      (rankRun cmp subs).2.log = ES ∧
      (rankRun cmp subs).2.llmCalls = ES.length ∧
      subs.length - 1 ≤ ES.length ∧
      2 * ES.length ≤ subs.length * (subs.length - 1) ∧
      ES.Pairwise (fun e f => ¬ sameUnorderedPair e f) ∧
      (rankRun cmp subs).2.subs = ES.foldl (applyComparison cmp) subs := by
  obtain ⟨m, hm⟩ : ∃ m, subs.length = m + 2 := ⟨subs.length - 2, by omega⟩
  have hrange : List.range subs.length =
      0 :: (List.range (m + 1)).map Nat.succ := by
    rw [hm, List.range_succ_eq_map]
  have hmapids : (List.range subs.length).map
      (sidAt ⟨subs, [], 0, []⟩) = subs.map Submission.sid :=
    range_map_getD Submission.sid subs
  rw [rankRun_eq_of_two_le cmp subs h2]
  dsimp only
  rw [hrange, bstSortSubmissions]
  have hinor : inorderTraversalReverse (BST.node BST.leaf 0 BST.leaf) = [0] :=
    rfl
  obtain ⟨ES, h1, h2', h3, h4, h5, h6, h7, h8⟩ :=
    insertAll_calls cmp ((List.range (m + 1)).map Nat.succ)
      (BST.node BST.leaf 0 BST.leaf) (by intro h; exact BST.noConfusion h)
      ⟨subs, [], 0, []⟩
      (by
        rw [hinor]
        have : ([0] ++ (List.range (m + 1)).map Nat.succ) =
            List.range subs.length := by
          rw [hrange]; rfl
        rw [this, hmapids]
        exact hids)
      (by intro k hk; simp at hk)
  cases hins : insertAll cmp ((List.range (m + 1)).map Nat.succ)
      (BST.node BST.leaf 0 BST.leaf) ⟨subs, [], 0, []⟩ with
  | mk t' st' =>
    try rw [hins] at h1
    try rw [hins] at h2'
    try rw [hins] at h8
    refine ⟨ES, ?_, ?_, ?_, ?_, h6, ?_⟩
    · simpa using h1
    · simpa using h2'
    · rw [List.length_map, List.length_range] at h3
      omega
    · rw [hinor] at h4
      rw [List.length_map, List.length_range] at h4
      simp only [List.length_singleton] at h4
      rw [hm, show m + 2 - 1 = m + 1 from by omega]
      nlinarith [h4]
    · simpa using h8

/-- Claim C1 amended: for two or more submissions with pairwise distinct ids,
the BST ranking invokes the comparator at least N - 1 times and at most
N * (N - 1) / 2 times, each invocation is logged, and no unordered pair of
submissions is compared more than once. -/
theorem claim1_amended_call_count (cmp : Cmp) (subs : List Submission)
    (h2 : 2 ≤ subs.length) (hids : (subs.map Submission.sid).Nodup) :
    subs.length - 1 ≤ (rankRun cmp subs).2.llmCalls ∧
    (rankRun cmp subs).2.llmCalls ≤ subs.length * (subs.length - 1) / 2 ∧
    ((rankRun cmp subs).2.log).Pairwise
      (fun e f => ¬ sameUnorderedPair e f) ∧
    (rankRun cmp subs).2.llmCalls = (rankRun cmp subs).2.log.length := by
  obtain ⟨ES, h1, h2', h3, h4, h5, h6⟩ := rank_calls cmp subs h2 hids
  refine ⟨?_, ?_, ?_, ?_⟩
  · rw [h2']; exact h3
  · rw [h2']
    refine (Nat.le_div_iff_mul_le (by norm_num)).mpr ?_
    omega
  · rw [h1]; exact h5
  · rw [h1, h2']

/-- Comparator under which the second submission loses its comparison with
the root and the third wins its comparison with the root: the third is then
attached on the empty right side without ever being compared with the
second. -/
def cmpC1 : Cmp := fun a _ =>
  if a = 1 then ⟨"B", "", "", pcEmpty, pcEmpty⟩
  else ⟨"A", "", "", pcEmpty, pcEmpty⟩

/-- Claim C1 counterexample: on three submissions, this comparator is invoked
only twice, not 3 = N * (N - 1) / 2 times, and the pair of the second and
third submissions is never compared. -/
theorem claim1_counterexample :
    subsABC.length = 3 ∧ 3 * (3 - 1) / 2 = 3 ∧
    (rankRun cmpC1 subsABC).2.llmCalls = 2 ∧
    (rankRun cmpC1 subsABC).2.log = [(1, 0), (2, 0)] := by decide

/-- Claim C1 amended witness at a concrete input. -/
theorem claim1_amended_witness :
    (2 ≤ subsABC.length ∧ (subsABC.map Submission.sid).Nodup) ∧
    (subsABC.length - 1 ≤ (rankRun cmpAlwaysA subsABC).2.llmCalls ∧
      (rankRun cmpAlwaysA subsABC).2.llmCalls ≤
        subsABC.length * (subsABC.length - 1) / 2 ∧
      ((rankRun cmpAlwaysA subsABC).2.log).Pairwise
        (fun e f => ¬ sameUnorderedPair e f) ∧
      (rankRun cmpAlwaysA subsABC).2.llmCalls =
        (rankRun cmpAlwaysA subsABC).2.log.length) :=
  ⟨⟨by decide, by decide⟩,
   claim1_amended_call_count cmpAlwaysA subsABC (by decide) (by decide)⟩

/-! ## Which comparison a submission's feedback ends up coming from -/

/-- One step of scanning the call log for the feedback of submission p:
lines 87 to 90 set the A-side fields first and the B-side fields second, so
when both sides are p the B-side value is the one that remains. -/
def stepFB (cmp : Cmp) (p : Nat) (acc : Option (String × ProsCons))
    (e : Nat × Nat) : Option (String × ProsCons) :=
  if e.2 = p then
    some ((cmp e.1 e.2).feedback_b, (cmp e.1 e.2).pros_cons_b)
  else if e.1 = p then
    some ((cmp e.1 e.2).feedback_a, (cmp e.1 e.2).pros_cons_a)
  else acc

/-- The feedback and pros_cons produced by the last comparison in the log
in which submission p participated, if any. -/
def lastComparisonFeedback (cmp : Cmp) (es : List (Nat × Nat)) (p : Nat) :
    Option (String × ProsCons) :=
  es.foldl (stepFB cmp p) none

/-- The two mutable feedback fields of the dict at position p. -/
def fieldsAt (subs : List Submission) (p : Nat) :
    Option String × Option ProsCons :=
  ((subs.getD p default).feedback, (subs.getD p default).pros_cons)

theorem getD_setFb_self (subs : List Submission) (p : Nat) (fb : String)
    (pc : ProsCons) (h : p < subs.length) :
    (setFb subs p fb pc).getD p default =
      { subs.getD p default with feedback := some fb, pros_cons := some pc } := by
  unfold setFb
  rw [List.getD_eq_getElem?_getD, List.getElem?_set_self h, Option.getD_some]

theorem getD_setFb_ne (subs : List Submission) (p : Nat) (fb : String)
    (pc : ProsCons) (q : Nat) (h : p ≠ q) :
    (setFb subs p fb pc).getD q default = subs.getD q default := by
  unfold setFb
  rw [List.getD_eq_getElem?_getD, List.getElem?_set_ne h,
    ← List.getD_eq_getElem?_getD]

theorem applyComparison_length (cmp : Cmp) (subs : List Submission)
    (e : Nat × Nat) : (applyComparison cmp subs e).length = subs.length := by
  simp only [applyComparison]
  rw [setFb_length, setFb_length]

theorem fieldsAt_applyComparison (cmp : Cmp) (subs : List Submission)
    (e : Nat × Nat) (p : Nat) (hp : p < subs.length) :
    fieldsAt (applyComparison cmp subs e) p =
      if e.2 = p then
        (some (cmp e.1 e.2).feedback_b, some (cmp e.1 e.2).pros_cons_b)
      else if e.1 = p then
        (some (cmp e.1 e.2).feedback_a, some (cmp e.1 e.2).pros_cons_a)
      else fieldsAt subs p := by
  simp only [applyComparison, fieldsAt]
  by_cases h2 : e.2 = p
  · subst h2
    rw [if_pos rfl,
      getD_setFb_self _ _ _ _ (by rw [setFb_length]; exact hp)]
  · rw [getD_setFb_ne _ _ _ _ _ h2, if_neg h2]
    by_cases h1 : e.1 = p
    · subst h1
      rw [if_pos rfl, getD_setFb_self _ _ _ _ hp]
    · rw [getD_setFb_ne _ _ _ _ _ h1, if_neg h1]

theorem foldl_apply_fields (cmp : Cmp) (p : Nat)
    (orig : Option String × Option ProsCons) :
    ∀ (es : List (Nat × Nat)) (subs : List Submission)
      (acc : Option (String × ProsCons)),
      p < subs.length →
      (match acc with
       | some fp => fieldsAt subs p = (some fp.1, some fp.2)
       | none => fieldsAt subs p = orig) →
      (match es.foldl (stepFB cmp p) acc with
       | some fp =>
           fieldsAt (es.foldl (applyComparison cmp) subs) p =
             (some fp.1, some fp.2)
       | none =>
           fieldsAt (es.foldl (applyComparison cmp) subs) p = orig) := by
  intro es
  induction es with
  | nil => intro subs acc _ hpre; exact hpre
  | cons e es ih =>
      intro subs acc hp hpre
      rw [List.foldl_cons, List.foldl_cons]
      refine ih (applyComparison cmp subs e) (stepFB cmp p acc e)
        (by rw [applyComparison_length]; exact hp) ?_
      by_cases h2 : e.2 = p
      · simp only [stepFB, if_pos h2]
        rw [fieldsAt_applyComparison cmp subs e p hp, if_pos h2]
      · by_cases h1 : e.1 = p
        · simp only [stepFB, if_neg h2, if_pos h1]
          rw [fieldsAt_applyComparison cmp subs e p hp, if_neg h2, if_pos h1]
        · simp only [stepFB, if_neg h2, if_neg h1]
          rw [fieldsAt_applyComparison cmp subs e p hp, if_neg h2, if_neg h1]
          exact hpre

/-- Claim C2 amended: after a ranking pass over two or more submissions with
distinct ids, the feedback and pros_cons fields of each participating
submission hold the values produced by the last logged comparison in which it
participated; a submission that participated in no comparison keeps its
original fields.  (Each comparison overwrites both parties' fields, so later
comparisons replace earlier feedback rather than the first one being kept.) -/
theorem claim2_amended_last_comparison_wins (cmp : Cmp)
    (subs : List Submission) (h2 : 2 ≤ subs.length)
    (hids : (subs.map Submission.sid).Nodup) (p : Nat)
    (hp : p < subs.length) :
    ((rankRun cmp subs).2.subs.getD p default).feedback =
      (match lastComparisonFeedback cmp ((rankRun cmp subs).2.log) p with
       | some fp => some fp.1
       | none => (subs.getD p default).feedback) ∧
    ((rankRun cmp subs).2.subs.getD p default).pros_cons =
      (match lastComparisonFeedback cmp ((rankRun cmp subs).2.log) p with
       | some fp => some fp.2
       | none => (subs.getD p default).pros_cons) := by
  obtain ⟨ES, hlog, _, _, _, _, hsubs⟩ := rank_calls cmp subs h2 hids
  rw [hlog, hsubs]
  have hmain := foldl_apply_fields cmp p (fieldsAt subs p) ES subs none hp rfl
  rw [lastComparisonFeedback]
  cases hm : ES.foldl (stepFB cmp p) none with
  | none =>
      rw [hm] at hmain
      have h1 := congrArg Prod.fst hmain
      have h2' := congrArg Prod.snd hmain
      exact ⟨h1, h2'⟩
  | some fp =>
      rw [hm] at hmain
      have h1 := congrArg Prod.fst hmain
      have h2' := congrArg Prod.snd hmain
      exact ⟨h1, h2'⟩

/-- Claim C2 counterexample: with three submissions and the always-A-wins
comparator, submission 0 participates in the comparisons (1,0) and (2,0); its
final feedback is the B-side feedback of the second comparison (2,0), not the
B-side feedback of the first comparison (1,0). -/
theorem claim2_counterexample :
    (rankRun cmpAlwaysA subsABC).2.log = [(1, 0), (2, 0), (2, 1)] ∧
    ((rankRun cmpAlwaysA subsABC).2.subs.getD 0 default).feedback =
      some ((cmpAlwaysA 2 0).feedback_b) ∧
    (cmpAlwaysA 1 0).feedback_b = "fb10" ∧
    ((rankRun cmpAlwaysA subsABC).2.subs.getD 0 default).feedback ≠
      some ((cmpAlwaysA 1 0).feedback_b) := by decide

/-- Claim C2 amended witness at a concrete input. -/
theorem claim2_amended_witness :
    (2 ≤ subsABC.length ∧ (subsABC.map Submission.sid).Nodup ∧
      0 < subsABC.length) ∧
    (((rankRun cmpAlwaysA subsABC).2.subs.getD 0 default).feedback =
      (match lastComparisonFeedback cmpAlwaysA
          ((rankRun cmpAlwaysA subsABC).2.log) 0 with
       | some fp => some fp.1
       | none => (subsABC.getD 0 default).feedback) ∧
    ((rankRun cmpAlwaysA subsABC).2.subs.getD 0 default).pros_cons =
      (match lastComparisonFeedback cmpAlwaysA
          ((rankRun cmpAlwaysA subsABC).2.log) 0 with
       | some fp => some fp.2
       | none => (subsABC.getD 0 default).pros_cons)) :=
  ⟨⟨by decide, by decide, by decide⟩,
   claim2_amended_last_comparison_wins cmpAlwaysA subsABC (by decide)
     (by decide) 0 (by decide)⟩

/-! ## Frame selection (frame_extraction_service._select_interactive_frames)

The cv2-based interactivity scorer works on raster images and is modelled as
an abstract scoring function passed as a parameter; the selection algorithm
below mirrors the Python control flow.  Python list.sort is a stable sort,
modelled by stable insertion sort; Python exceptions (min of an empty
sequence, division by zero, list index out of range) are modelled by
Option. -/

/-- The type of the interactivity scorer: frame, temporal index, full
(first-frame-dropped) sequence. -/
def ScoreFn (Frame : Type) : Type := Frame → Nat → List Frame → ℚ

/-- Python min over a nonempty list of naturals; none models the ValueError
on an empty sequence. -/
def pyMinNat : List Nat → Option Nat
  | [] => none
  | x :: xs => some (xs.foldl Nat.min x)

/-- Python abs(i - j) on ints. -/
def natAbsDiff (i j : Nat) : Nat := ((i : ℤ) - (j : ℤ)).natAbs

/-- Python floor division; none models ZeroDivisionError. -/
def pyFloorDiv (a b : Nat) : Option Nat :=
  if b = 0 then none else some (a / b)

/-- Stable insertion into a sorted list: x goes in front of the first
element y with before x y. -/
def insertOrd {α : Type} (before : α → α → Bool) (x : α) :
    List α → List α
  | [] => [x]
  | y :: ys => if before x y then x :: y :: ys else y :: insertOrd before x ys

/-- Stable insertion sort, modelling Python list.sort (which is stable,
also with reverse=True). -/
def isort {α : Type} (before : α → α → Bool) : List α → List α
  | [] => []
  | x :: xs => insertOrd before x (isort before xs)

/-- The scoring pass: for i in range(len(frames)), compute
(score, i, frames[i]). -/
def scoreFrames {Frame : Type} [Inhabited Frame] (score : ScoreFn Frame)
    (fs : List Frame) : List (ℚ × Nat × Frame) :=
  (List.range fs.length).map
    (fun i => (score (fs.getD i default) i fs, i, fs.getD i default))

/-- The greedy acceptance loop over the score-sorted triples: stop once
num_frames indices are kept; otherwise keep an index iff it is the first or
its distance to every kept index exceeds len(frames) // (num_frames * 2).
The divisor is only evaluated when some index is already kept, as in the
source, where the short-circuit or protects both min and the division. -/
def greedyStep {Frame : Type} (numFrames fsLen : Nat) :
    List (ℚ × Nat × Frame) → List Nat → List Frame →
    Option (List Nat × List Frame)
  | [], si, sf => some (si, sf)
  | (_, idx, f) :: rest, si, sf =>
    if numFrames ≤ si.length then some (si, sf)
    else
      match si with
      | [] => greedyStep numFrames fsLen rest (si ++ [idx]) (sf ++ [f])
      | _ :: _ =>
        match pyMinNat (si.map (fun sj => natAbsDiff idx sj)),
            pyFloorDiv fsLen (numFrames * 2) with
        | some m, some thresh =>
            if thresh < m then
              greedyStep numFrames fsLen rest (si ++ [idx]) (sf ++ [f])
            else greedyStep numFrames fsLen rest si sf
        | _, _ => none

/-- The inner for loop of the fill phase: scan temporal indices in order and
return the first index that is not yet kept and lies more than 5 positions
from every kept index; some none models the for-else fall-through. -/
def findFillAux (si : List Nat) : List Nat → Option (Option Nat)
  | [] => some none
  | i :: is =>
      if i ∈ si then findFillAux si is
      else
        match si with
        | [] => some (some i)
        | _ :: _ =>
          match pyMinNat (si.map (fun sj => natAbsDiff i sj)) with
          | none => none
          | some m => if 5 < m then some (some i) else findFillAux si is

/-- The while loop of the fill phase.  Note that it sorts selected_indices in
place but not selected_frames, exactly as the source does. -/
def fillLoop {Frame : Type} [Inhabited Frame] (numFrames : Nat)
    (fs : List Frame) (si : List Nat) (sf : List Frame) :
    Option (List Nat × List Frame) :=
  if _h : sf.length < numFrames ∧ sf.length < fs.length then
    let si2 := isort (fun x y => x ≤ y) si
    match findFillAux si2 (List.range fs.length) with
    | none => none
    | some none => some (si2, sf)
    | some (some i) =>
        fillLoop numFrames fs (si2 ++ [i]) (sf ++ [fs.getD i default])
  else some (si, sf)
termination_by numFrames - sf.length
decreasing_by
  simp only [List.length_append, List.length_singleton]
  omega

/-- frame_extraction_service._select_interactive_frames.  Returns none when
the Python code would raise. -/
def selectInteractiveFrames {Frame : Type} [Inhabited Frame]
    (frames : List Frame) (numFrames : Nat) (score : ScoreFn Frame) :
    Option (List Frame) :=
  if frames.length ≤ numFrames + 1 then some (frames.drop 1)
  else
    let fs := frames.drop 1
    let sorted := isort (fun x y => y.1 ≤ x.1) (scoreFrames score fs)
    match greedyStep numFrames fs.length sorted [] [] with
    | none => none
    | some (si, sf) =>
      match fillLoop numFrames fs si sf with
      | none => none
      | some (si2, sf2) =>
        match (List.range sf2.length).mapM
            (fun i => (si2.get? i).bind (fun a =>
              (sf2.get? i).map (fun f => (a, f)))) with
        | none => none
        | some indexed =>
            some ((isort (fun x y => x.1 ≤ y.1) indexed).map Prod.snd)

theorem insertOrd_perm {α : Type} (before : α → α → Bool) (x : α) :
    ∀ l : List α, (insertOrd before x l).Perm (x :: l) := by
  intro l
  induction l with
  | nil => exact List.Perm.refl _
  | cons y ys ih =>
      rw [insertOrd]
      by_cases hb : before x y
      · rw [if_pos hb]
      · rw [if_neg hb]
        refine List.Perm.trans (List.Perm.cons y ih) ?_
        exact List.Perm.swap x y ys

theorem isort_perm {α : Type} (before : α → α → Bool) :
    ∀ l : List α, (isort before l).Perm l := by
  intro l
  induction l with
  | nil => exact List.Perm.refl _
  | cons x xs ih =>
      rw [isort]
      exact List.Perm.trans (insertOrd_perm before x _) (List.Perm.cons x ih)

theorem isort_length {α : Type} (before : α → α → Bool) (l : List α) :
    (isort before l).length = l.length :=
  (isort_perm before l).length_eq

theorem getD_mem {α : Type} [Inhabited α] {l : List α} {i : Nat}
    (h : i < l.length) : l.getD i default ∈ l := by
  rw [List.getD_eq_getElem?_getD, List.getElem?_eq_getElem h, Option.getD_some]
  exact List.getElem_mem h

theorem scoreFrames_mem {Frame : Type} [Inhabited Frame]
    (score : ScoreFn Frame) (fs : List Frame) :
    ∀ t ∈ scoreFrames score fs, t.2.2 ∈ fs := by
  intro t ht
  obtain ⟨i, hi, rfl⟩ := List.mem_map.mp ht
  rw [List.mem_range] at hi
  exact getD_mem hi

theorem greedyStep_isSome {Frame : Type} (numFrames fsLen : Nat) :
    ∀ (l : List (ℚ × Nat × Frame)) (si : List Nat) (sf : List Frame),
      (greedyStep numFrames fsLen l si sf).isSome := by
  intro l
  induction l with
  | nil => intro si sf; rfl
  | cons t rest ih =>
      intro si sf
      obtain ⟨sc, idx, f⟩ := t
      simp only [greedyStep]
      by_cases hbreak : numFrames ≤ si.length
      · rw [if_pos hbreak]; rfl
      · rw [if_neg hbreak]
        cases si with
        | nil => exact ih _ _
        | cons a as =>
            have hdiv : numFrames * 2 ≠ 0 := by
              simp only [List.length_cons] at hbreak
              omega
            rw [show pyMinNat ((a :: as).map (fun sj => natAbsDiff idx sj)) =
                some ((as.map (fun sj => natAbsDiff idx sj)).foldl Nat.min
                  (natAbsDiff idx a)) from rfl,
              show pyFloorDiv fsLen (numFrames * 2) =
                some (fsLen / (numFrames * 2)) from by
                  rw [pyFloorDiv, if_neg hdiv]]
            dsimp only
            by_cases hth : fsLen / (numFrames * 2) <
                (as.map (fun sj => natAbsDiff idx sj)).foldl Nat.min
                  (natAbsDiff idx a)
            · rw [if_pos hth]; exact ih _ _
            · rw [if_neg hth]; exact ih _ _

theorem greedyStep_spec {Frame : Type} (numFrames fsLen : Nat)
    (fs : List Frame) :
    ∀ (l : List (ℚ × Nat × Frame)) (si : List Nat) (sf : List Frame)
      (si' : List Nat) (sf' : List Frame),
      greedyStep numFrames fsLen l si sf = some (si', sf') →
      (∀ t ∈ l, t.2.2 ∈ fs) → (∀ f ∈ sf, f ∈ fs) →
      si.length = sf.length →
      (∀ f ∈ sf', f ∈ fs) ∧ si'.length = sf'.length := by
  intro l
  induction l with
  | nil =>
      intro si sf si' sf' heq _ hsf hlen
      simp only [greedyStep, Option.some.injEq, Prod.mk.injEq] at heq
      obtain ⟨rfl, rfl⟩ := heq
      exact ⟨hsf, hlen⟩
  | cons t rest ih =>
      intro si sf si' sf' heq hl hsf hlen
      obtain ⟨sc, idx, f⟩ := t
      have hf : f ∈ fs := hl (sc, idx, f) (List.mem_cons_self _ _)
      have hl' : ∀ t ∈ rest, t.2.2 ∈ fs :=
        fun t ht => hl t (List.mem_cons_of_mem _ ht)
      have hkeep : ∀ x ∈ sf ++ [f], x ∈ fs := by
        intro x hx
        rcases List.mem_append.mp hx with hx | hx
        · exact hsf x hx
        · rw [List.mem_singleton] at hx; rw [hx]; exact hf
      have hklen : (si ++ [idx]).length = (sf ++ [f]).length := by
        simp [hlen]
      simp only [greedyStep] at heq
      by_cases hbreak : numFrames ≤ si.length
      · rw [if_pos hbreak] at heq
        simp only [Option.some.injEq, Prod.mk.injEq] at heq
        obtain ⟨rfl, rfl⟩ := heq
        exact ⟨hsf, hlen⟩
      · rw [if_neg hbreak] at heq
        cases si with
        | nil => exact ih _ _ _ _ heq hl' hkeep hklen
        | cons a as =>
            rw [show pyMinNat ((a :: as).map (fun sj => natAbsDiff idx sj)) =
                some ((as.map (fun sj => natAbsDiff idx sj)).foldl Nat.min
                  (natAbsDiff idx a)) from rfl] at heq
            have hdiv : numFrames * 2 ≠ 0 := by
              simp only [List.length_cons] at hbreak
              omega
            rw [show pyFloorDiv fsLen (numFrames * 2) =
                some (fsLen / (numFrames * 2)) from by
                  rw [pyFloorDiv, if_neg hdiv]] at heq
            dsimp only at heq
            by_cases hth : fsLen / (numFrames * 2) <
                (as.map (fun sj => natAbsDiff idx sj)).foldl Nat.min
                  (natAbsDiff idx a)
            · rw [if_pos hth] at heq
              exact ih _ _ _ _ heq hl' hkeep hklen
            · rw [if_neg hth] at heq
              exact ih _ _ _ _ heq hl' hsf hlen

theorem findFillAux_ne_none (si : List Nat) :
    ∀ is : List Nat, findFillAux si is ≠ none := by
  intro is
  induction is with
  | nil => exact fun h => Option.noConfusion h
  | cons i is ih =>
      simp only [findFillAux]
      by_cases hmem : i ∈ si
      · rw [if_pos hmem]; exact ih
      · rw [if_neg hmem]
        cases si with
        | nil => exact fun h => Option.noConfusion h
        | cons a as =>
            rw [show pyMinNat ((a :: as).map (fun sj => natAbsDiff i sj)) =
                some ((as.map (fun sj => natAbsDiff i sj)).foldl Nat.min
                  (natAbsDiff i a)) from rfl]
            dsimp only
            by_cases h5 : 5 < (as.map (fun sj => natAbsDiff i sj)).foldl
                Nat.min (natAbsDiff i a)
            · rw [if_pos h5]; exact fun h => Option.noConfusion h
            · rw [if_neg h5]; exact ih

theorem findFillAux_mem (si : List Nat) :
    ∀ (is : List Nat) (i : Nat),
      findFillAux si is = some (some i) → i ∈ is := by
  intro is
  induction is with
  | nil =>
      intro i h
      exact absurd (Option.some.inj h) (fun hx => Option.noConfusion hx)
  | cons j is ih =>
      intro i h
      simp only [findFillAux] at h
      by_cases hmem : j ∈ si
      · rw [if_pos hmem] at h
        exact List.mem_cons_of_mem _ (ih i h)
      · rw [if_neg hmem] at h
        cases si with
        | nil =>
            simp only [Option.some.injEq] at h
            rw [← h]
            exact List.mem_cons_self _ _
        | cons a as =>
            rw [show pyMinNat ((a :: as).map (fun sj => natAbsDiff j sj)) =
                some ((as.map (fun sj => natAbsDiff j sj)).foldl Nat.min
                  (natAbsDiff j a)) from rfl] at h
            dsimp only at h
            by_cases h5 : 5 < (as.map (fun sj => natAbsDiff j sj)).foldl
                Nat.min (natAbsDiff j a)
            · rw [if_pos h5] at h
              simp only [Option.some.injEq] at h
              rw [← h]
              exact List.mem_cons_self _ _
            · rw [if_neg h5] at h
              exact List.mem_cons_of_mem _ (ih i h)

theorem fillLoop_spec {Frame : Type} [Inhabited Frame] (numFrames : Nat)
    (fs : List Frame) :
    ∀ (fuel : Nat) (si : List Nat) (sf : List Frame),
      numFrames - sf.length ≤ fuel →
      si.length = sf.length →
      (∀ f ∈ sf, f ∈ fs) →
      ∃ si2 sf2, fillLoop numFrames fs si sf = some (si2, sf2) ∧
        si2.length = sf2.length ∧ (∀ f ∈ sf2, f ∈ fs) := by
  intro fuel
  induction fuel with
  | zero =>
      intro si sf hfuel hlen hmem
      rw [fillLoop, dif_neg (by omega)]
      exact ⟨si, sf, rfl, hlen, hmem⟩
  | succ fuel ih =>
      intro si sf hfuel hlen hmem
      rw [fillLoop]
      by_cases hc : sf.length < numFrames ∧ sf.length < fs.length
      · rw [dif_pos hc]
        dsimp only
        have hlen2 : (isort (fun x y => x ≤ y) si).length = sf.length := by
          rw [isort_length, hlen]
        cases hfa : findFillAux (isort (fun x y => x ≤ y) si)
            (List.range fs.length) with
        | none => exact absurd hfa (findFillAux_ne_none _ _)
        | some o =>
            cases o with
            | none => exact ⟨_, _, rfl, hlen2, hmem⟩
            | some i =>
                have hi : i < fs.length := by
                  have := findFillAux_mem _ _ _ hfa
                  rwa [List.mem_range] at this
                refine ih (isort (fun x y => x ≤ y) si ++ [i])
                  (sf ++ [fs.getD i default]) ?_ ?_ ?_
                · simp only [List.length_append, List.length_singleton]
                  omega
                · simp only [List.length_append, List.length_singleton,
                    hlen2]
                · intro f hf
                  rcases List.mem_append.mp hf with hf | hf
                  · exact hmem f hf
                  · rw [List.mem_singleton] at hf
                    rw [hf]
                    exact getD_mem hi
      · rw [dif_neg hc]
        exact ⟨si, sf, rfl, hlen, hmem⟩

theorem mapM_isSome {α β : Type} (f : α → Option β) :
    ∀ l : List α, (∀ a ∈ l, (f a).isSome) → (l.mapM f).isSome := by
  intro l
  induction l with
  | nil => intro _; rfl
  | cons a as ih =>
      intro h
      rw [List.mapM_cons]
      have ha := h a (List.mem_cons_self _ _)
      obtain ⟨b, hb⟩ := Option.isSome_iff_exists.mp ha
      have has := ih (fun x hx => h x (List.mem_cons_of_mem _ hx))
      obtain ⟨bs, hbs⟩ := Option.isSome_iff_exists.mp has
      rw [hb, hbs]
      rfl

theorem mapM_mem {α β : Type} (f : α → Option β) :
    ∀ (l : List α) (r : List β), l.mapM f = some r →
      ∀ b ∈ r, ∃ a ∈ l, f a = some b := by
  intro l
  induction l with
  | nil =>
      intro r h b hb
      have h' : ([] : List β) = r := by
        rw [List.mapM_nil] at h
        exact Option.some.inj h
      rw [← h'] at hb
      cases hb
  | cons a as ih =>
      intro r h b hb
      rw [List.mapM_cons] at h
      cases hfa : f a with
      | none => rw [hfa] at h; simp at h
      | some b0 =>
          rw [hfa] at h
          cases hrest : as.mapM f with
          | none => rw [hrest] at h; simp at h
          | some bs =>
              rw [hrest] at h
              have h' : b0 :: bs = r := by simpa using h
              rw [← h'] at hb
              rcases List.mem_cons.mp hb with hb | hb
              · exact ⟨a, List.mem_cons_self _ _, by rw [hfa, hb]⟩
              · obtain ⟨x, hx, hfx⟩ := ih bs hrest b hb
                exact ⟨x, List.mem_cons_of_mem _ hx, hfx⟩

/-- Claim C10: for num_frames at least 1 the frame selector never hits an
index error, an empty-sequence min, or a division by zero: it returns
normally on every input (none in the model marks a Python exception), and the
empty input yields the empty output. -/
theorem claim10_selector_total {Frame : Type} [Inhabited Frame]
    (frames : List Frame) (numFrames : Nat) (score : ScoreFn Frame)
    (h1 : 1 ≤ numFrames) :
    (selectInteractiveFrames frames numFrames score).isSome ∧
    selectInteractiveFrames ([] : List Frame) numFrames score = some [] := by
  constructor
  · rw [selectInteractiveFrames]
    by_cases hg : frames.length ≤ numFrames + 1
    · rw [if_pos hg]; rfl
    · rw [if_neg hg]
      dsimp only
      obtain ⟨⟨si, sf⟩, hgs⟩ := Option.isSome_iff_exists.mp
        (greedyStep_isSome numFrames (frames.drop 1).length
          (isort (fun x y => y.1 ≤ x.1) (scoreFrames score (frames.drop 1)))
          [] [])
      rw [hgs]
      dsimp only
      obtain ⟨hmem, hlen⟩ := greedyStep_spec numFrames
        (frames.drop 1).length (frames.drop 1) _ [] [] si sf hgs
        (fun t ht => scoreFrames_mem score _ t
          (((isort_perm _ _).mem_iff).mp ht))
        (fun f hf => absurd hf (List.not_mem_nil f)) rfl
      obtain ⟨si2, sf2, hfl, hlen2, hmem2⟩ := fillLoop_spec numFrames
        (frames.drop 1) (numFrames - sf.length) si sf (le_refl _) hlen hmem
      rw [hfl]
      dsimp only
      obtain ⟨indexed, hind⟩ := Option.isSome_iff_exists.mp
        (mapM_isSome (fun i => (si2.get? i).bind (fun a =>
            (sf2.get? i).map (fun f => (a, f)))) (List.range sf2.length) (by
          intro i hi
          rw [List.mem_range] at hi
          have hi' : i < si2.length := by omega
          dsimp only
          rw [List.get?_eq_get hi', List.get?_eq_get hi]
          rfl))
      rw [hind]
      rfl
  · rfl

/-- Concrete constant scorer for witnesses. -/
def constScore : ScoreFn Nat := fun _ _ _ => 0

/-- Claim C10 witness at a concrete input. -/
theorem claim10_witness :
    1 ≤ 1 ∧
    ((selectInteractiveFrames ([0, 1, 2] : List Nat) 1 constScore).isSome ∧
      selectInteractiveFrames ([] : List Nat) 1 constScore = some []) :=
  ⟨by decide, claim10_selector_total [0, 1, 2] 1 constScore (by decide)⟩

/-- Claim C4 amended: the frame selector always discards the first frame
(every returned frame is drawn from the tail of the input), and whenever the
count of frames remaining after the discard is at most target_count (that is,
len(frames) is at most target_count + 1), it returns all remaining frames
unmodified in temporal order, independently of the scorer. -/
theorem claim4_amended_first_frame_and_small_input {Frame : Type}
    [Inhabited Frame] (frames : List Frame) (numFrames : Nat)
    (score : ScoreFn Frame) (out : List Frame)
    (hout : selectInteractiveFrames frames numFrames score = some out) :
    (∀ g ∈ out, g ∈ frames.drop 1) ∧
    ((frames.drop 1).length ≤ numFrames → out = frames.drop 1) := by
  rw [selectInteractiveFrames] at hout
  by_cases hg : frames.length ≤ numFrames + 1
  · rw [if_pos hg] at hout
    have heq : frames.drop 1 = out := Option.some.inj hout
    rw [← heq]
    exact ⟨fun g hgm => hgm, fun _ => rfl⟩
  · rw [if_neg hg] at hout
    dsimp only at hout
    constructor
    · cases hgs : greedyStep numFrames (frames.drop 1).length
          (isort (fun x y => y.1 ≤ x.1) (scoreFrames score (frames.drop 1)))
          [] [] with
      | none => rw [hgs] at hout; cases hout
      | some p =>
          obtain ⟨si, sf⟩ := p
          rw [hgs] at hout
          dsimp only at hout
          obtain ⟨hmem, hlen⟩ := greedyStep_spec numFrames
            (frames.drop 1).length (frames.drop 1) _ [] [] si sf hgs
            (fun t ht => scoreFrames_mem score _ t
              (((isort_perm _ _).mem_iff).mp ht))
            (fun f hf => absurd hf (List.not_mem_nil f)) rfl
          obtain ⟨si2, sf2, hfl, hlen2, hmem2⟩ := fillLoop_spec numFrames
            (frames.drop 1) (numFrames - sf.length) si sf (le_refl _)
            hlen hmem
          rw [hfl] at hout
          dsimp only at hout
          cases hind : (List.range sf2.length).mapM
              (fun i => (si2.get? i).bind (fun a =>
                (sf2.get? i).map (fun f => (a, f)))) with
          | none => rw [hind] at hout; cases hout
          | some indexed =>
              rw [hind] at hout
              dsimp only at hout
              have hout' : (isort (fun x y => x.1 ≤ y.1) indexed).map
                  Prod.snd = out := Option.some.inj hout
              intro g hgm
              rw [← hout'] at hgm
              obtain ⟨pair, hpair, rfl⟩ := List.mem_map.mp hgm
              have hpair' : pair ∈ indexed :=
                ((isort_perm _ _).mem_iff).mp hpair
              obtain ⟨i, _, hfi⟩ := mapM_mem _ _ _ hind pair hpair'
              cases hsi : si2.get? i with
              | none => rw [hsi] at hfi; cases hfi
              | some a =>
                  rw [hsi] at hfi
                  cases hsf : sf2.get? i with
                  | none => rw [hsf] at hfi; cases hfi
                  | some f =>
                      rw [hsf] at hfi
                      have hfi' : (a, f) = pair := Option.some.inj hfi
                      have hfmem : f ∈ sf2 := List.get?_mem hsf
                      rw [← hfi']
                      exact hmem2 f hfmem
    · intro hle
      exfalso
      rw [List.length_drop] at hle
      omega

/-- Claim C4 counterexample: with 3 frames and target_count 1, the count
remaining after the discard is 2, which is at most target_count + 1, yet the
selector enters the scoring branch and returns a single frame rather than
all remaining frames: the early-return guard fires only when the remaining
count is at most target_count, not target_count + 1. -/
theorem claim4_counterexample :
    ((([0, 1, 2] : List Nat)).drop 1).length ≤ 1 + 1 ∧
    selectInteractiveFrames ([0, 1, 2] : List Nat) 1 constScore = some [1] ∧
    ([1] : List Nat) ≠ ([0, 1, 2] : List Nat).drop 1 := by
  refine ⟨by decide, ?_, by decide⟩
  simp [selectInteractiveFrames, scoreFrames, isort, insertOrd, greedyStep,
    fillLoop, findFillAux, pyMinNat, natAbsDiff, pyFloorDiv, List.range_succ,
    List.mapM, List.mapM.loop]

/-- Claim C4 amended witness at a concrete input. -/
theorem claim4_amended_witness :
    selectInteractiveFrames ([5, 6, 7] : List Nat) 2 constScore =
      some (([5, 6, 7] : List Nat).drop 1) ∧
    ((∀ g ∈ ([5, 6, 7] : List Nat).drop 1,
        g ∈ ([5, 6, 7] : List Nat).drop 1) ∧
      ((([5, 6, 7] : List Nat).drop 1).length ≤ 2 →
        ([5, 6, 7] : List Nat).drop 1 = ([5, 6, 7] : List Nat).drop 1)) :=
  ⟨rfl, claim4_amended_first_frame_and_small_input [5, 6, 7] 2 constScore
    _ rfl⟩

/-! ## The comparator service (llm_service.LLMService.evaluate_submissions)

The HTTP transport, the retry loop and json.loads are external effects: the
API call outcome and the JSON parser are passed in as parameters (an error
models a raised exception after retries, respectively a json.loads
exception).  Everything downstream of them is modelled from the source. -/

/-- Python values as handled by the response parsing. -/
inductive PVal where
  | pstr (s : String)
  | pnum (q : ℚ)
  | pbool (b : Bool)
  | pnull
  | plist (l : List PVal)
  | pdict (d : List (String × PVal))

/-- First-match dict lookup. -/
def lookupStr : List (String × PVal) → String → Option PVal
  | [], _ => none
  | (k, v) :: rest, key => if k = key then some v else lookupStr rest key

/-- Whether a Python value is a dict. -/
def isDict : PVal → Bool
  | .pdict _ => true
  | _ => false

/-- Key membership in a dict value (false on non-dicts). -/
def dictHasKey (v : PVal) (key : String) : Bool :=
  match v with
  | .pdict d => d.any (fun kv => kv.1 = key)
  | _ => false

/-- Whether the second char list occurs at the start of the first. -/
def listStartsWith : List Char → List Char → Bool
  | [], _ => true
  | _ :: _, [] => false
  | n :: ns, h :: hs => n = h && listStartsWith ns hs

/-- Whether needle occurs somewhere in hay. -/
def containsAt (needle : List Char) : List Char → Bool
  | [] => needle.isEmpty
  | h :: hs => listStartsWith needle (h :: hs) || containsAt needle hs

/-- Python substring test s2 in s1. -/
def strContainsSub (hay needle : String) : Bool :=
  containsAt needle.toList hay.toList

/-- Python membership test field in v; raises (error) on numbers, booleans
and None, as Python does. -/
def pyIn (field : String) : PVal → Except Unit Bool
  | .pdict d => .ok (d.any (fun kv => kv.1 = field))
  | .plist l => .ok (l.any (fun v =>
      match v with
      | .pstr t => t = field
      | _ => false))
  | .pstr s => .ok (strContainsSub s field)
  | _ => .error ()

/-- The required_fields list of _parse_evaluation_response. -/
def requiredFields : List String :=
  ["winner", "feedback_a", "feedback_b", "pros_cons_a", "pros_cons_b"]

/-- all(field in evaluation for field in required_fields), with Python's
short-circuiting: a later exception is not reached once a field is
missing. -/
def checkFields (ev : PVal) : List String → Except Unit Bool
  | [] => .ok true
  | f :: rest =>
    match pyIn f ev with
    | .error e => .error e
    | .ok b => if b then checkFields ev rest else .ok false

/-- Python str.find for a single char: index of first occurrence or -1. -/
def strFindChar (s : String) (c : Char) : Int :=
  match s.toList.findIdx? (fun x => x = c) with
  | some i => (i : Int)
  | none => -1

/-- Python str.rfind for a single char: index of last occurrence or -1. -/
def strRFindChar (s : String) (c : Char) : Int :=
  match s.toList.reverse.findIdx? (fun x => x = c) with
  | some i => (s.toList.length : Int) - 1 - i
  | none => -1

/-- Python s[a:b] for nonnegative bounds. -/
def pySliceNat (s : String) (a b : Nat) : String :=
  String.mk ((s.toList.take b).drop a)

/-- dict.get(key, default); raises (error) on non-dicts as attribute access
does in Python. -/
def pyDictGetD : PVal → String → PVal → Except Unit PVal
  | .pdict d, k, dflt => .ok ((lookupStr d k).getD dflt)
  | _, _, _ => .error ()

/-- v[0]: first element of a list or first char of a string, error
otherwise (IndexError on an empty list, TypeError on other types). -/
def pyIndex0 : PVal → Except Unit PVal
  | .plist (x :: _) => .ok x
  | .plist [] => .error ()
  | .pstr s =>
      match s.toList with
      | [] => .error ()
      | c :: _ => .ok (.pstr (String.mk [c]))
  | _ => .error ()

/-- A pros/cons dict literal. -/
def prosConsDict (ps cs : List String) : PVal :=
  .pdict [("pros", .plist (ps.map PVal.pstr)),
          ("cons", .plist (cs.map PVal.pstr))]

/-- llm_service._fallback_evaluation; rand models random.random(). -/
def fallbackEvaluation (na nb : String) (rand : ℚ) : PVal :=
  .pdict [("winner", .pstr (if 1/2 < rand then "A" else "B")),
    ("feedback_a", .pstr ("Submission by " ++ na ++
      " shows good understanding of the task requirements.")),
    ("feedback_b", .pstr ("Submission by " ++ nb ++
      " demonstrates creative problem-solving approach.")),
    ("pros_cons_a", prosConsDict
      ["Clear implementation", "Well-structured approach", "Good presentation"]
      ["Could improve some aspects", "Minor areas for enhancement"]),
    ("pros_cons_b", prosConsDict
      ["Innovative approach", "Good technical execution", "Clean interface"]
      ["Some refinements possible", "Could add more features"])]

/-- llm_service._extract_evaluation_from_text. -/
def extractEvaluationFromText (text na nb : String) : PVal :=
  .pdict [("winner", .pstr
      (if strContainsSub text.toLower na.toLower &&
          strContainsSub text.toLower "better" then "A" else "B")),
    ("feedback_a", .pstr ("Based on the analysis, " ++ na ++
      "'s submission shows various strengths and areas for improvement.")),
    ("feedback_b", .pstr ("Based on the analysis, " ++ nb ++
      "'s submission demonstrates different approaches and qualities.")),
    ("pros_cons_a", prosConsDict
      ["Analyzed by Claude AI", "Meets task requirements"]
      ["Areas for improvement identified"]),
    ("pros_cons_b", prosConsDict
      ["Evaluated comprehensively", "Shows technical skills"]
      ["Some aspects could be enhanced"])]

/-- The body of _parse_evaluation_response inside its try: extract the text,
slice from the first opening brace to past the last closing brace, parse,
and return the parsed dict when all required fields are present, falling
through to the text heuristic otherwise; errors are the exceptions caught by
the surrounding except. -/
def parseBody (jsonLoads : String → Except Unit PVal) (response : PVal)
    (na nb : String) : Except Unit PVal :=
  match pyDictGetD response "content" (.plist [.pdict []]) with
  | .error e => .error e
  | .ok content0 =>
    match pyIndex0 content0 with
    | .error e => .error e
    | .ok elem0 =>
      match pyDictGetD elem0 "text" (.pstr "") with
      | .error e => .error e
      | .ok textv =>
        match textv with
        | .pstr content =>
          let start := strFindChar content (Char.ofNat 123)
          let endIdx := strRFindChar content (Char.ofNat 125) + 1
          if start ≠ -1 ∧ endIdx ≠ -1 then
            match jsonLoads (pySliceNat content start.toNat endIdx.toNat) with
            | .error e => .error e
            | .ok ev =>
              match checkFields ev requiredFields with
              | .error e => .error e
              | .ok true => .ok ev
              | .ok false => .ok (extractEvaluationFromText content na nb)
          else .ok (extractEvaluationFromText content na nb)
        | _ => .error ()

/-- llm_service._parse_evaluation_response: its internal try/except catches
any exception of the body and falls back. -/
def parseEvaluationResponse (jsonLoads : String → Except Unit PVal)
    (response : PVal) (na nb : String) (rand : ℚ) : PVal :=
  match parseBody jsonLoads response na nb with
  | .ok v => v
  | .error _ => fallbackEvaluation na nb rand

/-- llm_service.evaluate_submissions: the outer try/except catches a raise
from the retried API call (and anything else) and falls back; otherwise the
response is parsed. -/
def evaluateSubmissions (jsonLoads : String → Except Unit PVal)
    (apiResult : Except Unit PVal) (na nb : String) (rand : ℚ) : PVal :=
  match apiResult with
  | .error _ => fallbackEvaluation na nb rand
  | .ok resp => parseEvaluationResponse jsonLoads resp na nb rand

/-- The structural validity check of the claim: a dict carrying the five
required keys. -/
def hasEvalFields (v : PVal) : Bool :=
  requiredFields.all (dictHasKey v)

theorem checkFields_all (ev : PVal) :
    ∀ l : List String, checkFields ev l = .ok true → isDict ev = true →
      l.all (dictHasKey ev) = true := by
  intro l
  induction l with
  | nil => intro _ _; rfl
  | cons f rest ih =>
      intro h hd
      cases ev with
      | pdict d =>
          rw [checkFields] at h
          dsimp only [pyIn] at h
          by_cases hb : d.any (fun kv => kv.1 = f) = true
          · rw [if_pos hb] at h
            rw [List.all_cons]
            have hk : dictHasKey (PVal.pdict d) f = true := hb
            rw [hk, ih h hd]
            rfl
          · rw [if_neg hb] at h
            exact absurd (Except.ok.inj h) (by simp)
      | pstr s => exact absurd hd (by simp [isDict])
      | pnum q => exact absurd hd (by simp [isDict])
      | pbool b => exact absurd hd (by simp [isDict])
      | pnull => exact absurd hd (by simp [isDict])
      | plist l2 => exact absurd hd (by simp [isDict])

theorem fallbackEvaluation_structured (na nb : String) (rand : ℚ) :
    isDict (fallbackEvaluation na nb rand) = true ∧
    hasEvalFields (fallbackEvaluation na nb rand) = true :=
  ⟨rfl, rfl⟩

theorem extractEvaluationFromText_structured (text na nb : String) :
    isDict (extractEvaluationFromText text na nb) = true ∧
    hasEvalFields (extractEvaluationFromText text na nb) = true :=
  ⟨rfl, rfl⟩

theorem parseBody_ok (jsonLoads : String → Except Unit PVal)
    (hJ : ∀ s v, jsonLoads s = Except.ok v → isDict v = true)
    (response : PVal) (na nb : String) (v : PVal)
    (h : parseBody jsonLoads response na nb = .ok v) :
    isDict v = true ∧ hasEvalFields v = true := by
  rw [parseBody] at h
  cases h1 : pyDictGetD response "content" (.plist [.pdict []]) with
  | error e => rw [h1] at h; exact Except.noConfusion h
  | ok content0 =>
    rw [h1] at h
    dsimp only at h
    cases h2 : pyIndex0 content0 with
    | error e => rw [h2] at h; exact Except.noConfusion h
    | ok elem0 =>
      rw [h2] at h
      dsimp only at h
      cases h3 : pyDictGetD elem0 "text" (.pstr "") with
      | error e => rw [h3] at h; exact Except.noConfusion h
      | ok textv =>
        rw [h3] at h
        dsimp only at h
        cases textv with
        | pstr content =>
            dsimp only at h
            by_cases hc : strFindChar content (Char.ofNat 123) ≠ -1 ∧
                strRFindChar content (Char.ofNat 125) + 1 ≠ -1
            · rw [if_pos hc] at h
              cases h4 : jsonLoads (pySliceNat content
                  (strFindChar content (Char.ofNat 123)).toNat
                  (strRFindChar content (Char.ofNat 125) + 1).toNat) with
              | error e => rw [h4] at h; exact Except.noConfusion h
              | ok ev =>
                  rw [h4] at h
                  dsimp only at h
                  have hd := hJ _ _ h4
                  cases h5 : checkFields ev requiredFields with
                  | error e => rw [h5] at h; exact Except.noConfusion h
                  | ok b =>
                      rw [h5] at h
                      cases b with
                      | false =>
                          dsimp only at h
                          rw [← Except.ok.inj h]
                          exact extractEvaluationFromText_structured _ _ _
                      | true =>
                          dsimp only at h
                          rw [← Except.ok.inj h]
                          exact ⟨hd, checkFields_all ev requiredFields h5 hd⟩
            · rw [if_neg hc] at h
              rw [← Except.ok.inj h]
              exact extractEvaluationFromText_structured _ _ _
        | pnum q => exact Except.noConfusion h
        | pbool b => exact Except.noConfusion h
        | pnull => exact Except.noConfusion h
        | plist l => exact Except.noConfusion h
        | pdict d => exact Except.noConfusion h

/-- Claim C9: for every well-formed call, evaluate_submissions never
propagates an exception (it is a total function of the modelled API and
parser outcomes) and always returns a dict containing winner, feedback_a,
feedback_b, pros_cons_a and pros_cons_b; when the provider call fails it
falls back to the heuristic random result.  json.loads is assumed to return
a dict when it succeeds on the sliced text, which starts with an opening
brace and ends with a closing brace. -/
theorem claim9_comparator_always_structured
    (jsonLoads : String → Except Unit PVal)
    (hJ : ∀ s v, jsonLoads s = Except.ok v → isDict v = true)
    (apiResult : Except Unit PVal) (na nb : String) (rand : ℚ) :
    isDict (evaluateSubmissions jsonLoads apiResult na nb rand) = true ∧
    hasEvalFields (evaluateSubmissions jsonLoads apiResult na nb rand) =
      true ∧
    (∀ e, apiResult = Except.error e →
      evaluateSubmissions jsonLoads apiResult na nb rand =
        fallbackEvaluation na nb rand) := by
  cases apiResult with
  | error e =>
      refine ⟨(fallbackEvaluation_structured na nb rand).1,
        (fallbackEvaluation_structured na nb rand).2, ?_⟩
      intro e' _
      rfl
  | ok resp =>
      rw [evaluateSubmissions, parseEvaluationResponse]
      cases hp : parseBody jsonLoads resp na nb with
      | error e =>
          exact ⟨(fallbackEvaluation_structured na nb rand).1,
            (fallbackEvaluation_structured na nb rand).2,
            fun e' h => Except.noConfusion h⟩
      | ok v =>
          obtain ⟨hd, hf⟩ := parseBody_ok jsonLoads hJ resp na nb v hp
          exact ⟨hd, hf, fun e' h => Except.noConfusion h⟩

/-- Claim C9 witness at a concrete environment: a provider that always
fails and a parser that always fails. -/
theorem claim9_witness :
    (∀ (s : String) (v : PVal),
        (fun _ => (Except.error () : Except Unit PVal)) s =
        Except.ok v → isDict v = true) ∧
    (isDict (evaluateSubmissions (fun _ => Except.error ())
        (Except.error ()) "A" "B" 0) = true ∧
      hasEvalFields (evaluateSubmissions (fun _ => Except.error ())
        (Except.error ()) "A" "B" 0) = true ∧
      (∀ e, (Except.error () : Except Unit PVal) = Except.error e →
        evaluateSubmissions (fun _ => Except.error ())
            (Except.error ()) "A" "B" 0 =
          fallbackEvaluation "A" "B" 0)) :=
  ⟨fun s v h => Except.noConfusion h,
   claim9_comparator_always_structured (fun _ => Except.error ())
     (fun s v h => Except.noConfusion h) (Except.error ()) "A" "B" 0⟩
